import Mathlib

/-!
# warp-applet: status and settings parsing, mode menu, reconciliation loop

A shallow embedding of `internal/applet/applet.go`.

* A Go byte slice or string is a list of byte values (`Bytes`).
* The outcome of running the external `warp-cli` command is an input (`cmdRun`):
  the captured output together with the flag "`cmd.Run()` returned an error".
* The tray widgets are reduced to what the program reads back from them: the
  seven mode checkboxes (`modeMenu`).  Titles, icons and the visibility of the
  connect and disconnect items are written but never read, and are left out.
* External effects (commands started, sleeps, status queries) are recorded in
  traces returned by the functions.
* The functions of the Go standard library that the applet calls are embedded
  after their Go sources: `bytes.Index`, `bytes.Contains`, `bytes.TrimSpace`
  (with `TrimFunc`, `indexFunc`, `lastIndexFunc`), `utf8.DecodeRune`,
  `utf8.DecodeLastRune`, `unicode.IsSpace`, `(*bytes.Buffer).ReadBytes`, and the
  `range` loop over a string.  Loops over a slice take the length of the slice
  as fuel; the section on fuel shows that it is never used up.
* Durations are in nanoseconds, as in Go; none comes near the range of `int64`.
-/

namespace WarpApplet

/-! ## Bytes and the functions of package `bytes` the applet uses -/

/-- A byte slice or a string: the list of its byte values. -/
abbrev Bytes := List Nat

/-- The bytes of an ASCII string literal. -/
def ascii (s : String) : Bytes := s.data.map Char.toNat

/-- Go `bytes.Index(s, sep)`: the index of the first instance of `sep` in `s`,
`none` (Go: `-1`) when `sep` is not present. -/
def bytesIndex (s sep : Bytes) : Option Nat :=
  if sep.isPrefixOf s then some 0
  else match s with
    | [] => none
    | _ :: cs => (bytesIndex cs sep).map (· + 1)

/-- Go `bytes.Contains(b, subslice)`, which is `Index(b, subslice) != -1`. -/
def bytesContains (b subslice : Bytes) : Bool := (bytesIndex b subslice).isSome

/-! ## Status -/

/-- Go `type status string`. -/
abbrev status := Bytes

def statusUnknown : status := ascii "Unknown"
def statusConnecting : status := ascii "Connecting"
def statusConnected : status := ascii "Connected"
def statusDisconnected : status := ascii "Disconnected"
def statusDisconnecting : status := ascii "Disconnecting"
def statusNoNetwork : status := ascii "No Network"

/-- One run of the external command: the captured output (stdout and stderr
in the shared buffer) and whether `cmd.Run()` returned an error. -/
structure cmdRun where
  out : Bytes
  err : Bool
deriving DecidableEq

/-- Go `(*Applet).updateStatus`, as a function of the run of `warp-cli status`. -/
def updateStatus (run : cmdRun) : status :=
  if run.err then statusUnknown
  else
    let output := run.out
    if bytesContains output statusConnecting then statusConnecting
    else if bytesContains output statusDisconnecting then statusDisconnecting
    else if bytesContains output statusConnected then statusConnected
    else if bytesContains output statusDisconnected then statusDisconnected
    else if bytesContains output statusNoNetwork then statusNoNetwork
    else statusUnknown

/-- The markers in the order the specification lists them. -/
def markerOrder : List status :=
  [statusConnecting, statusDisconnecting, statusConnected, statusDisconnected, statusNoNetwork]

/-- The specification of the status parser: the first marker, in the fixed
order, that is a contiguous sublist of the output; `Unknown` when there is none. -/
def firstMarker (output : Bytes) : status :=
  (markerOrder.find? (fun mk => decide (mk <:+: output))).getD statusUnknown

/-! ## Mode and the mode menu -/

/-- Go `type mode string`. -/
abbrev mode := Bytes

def modeUnknown : mode := ascii "Unknown"
def modeDnsOverHttps : mode := ascii "DnsOverHttps"
def modeWarp : mode := ascii "Warp"
def modeWarpWithDnsOverHttps : mode := ascii "WarpWithDnsOverHttps"
def modeDnsOverTls : mode := ascii "DnsOverTls"
def modeWarpWithDnsOverTls : mode := ascii "WarpWithDnsOverTls"
def modeWarpProxy : mode := ascii "WarpProxy"
def modeTunnelOnly : mode := ascii "TunnelOnly"

/-- Go `(mode).cmdArg`. -/
def cmdArg (m : mode) : Bytes :=
  if m = modeDnsOverHttps then ascii "doh"
  else if m = modeWarp then ascii "warp"
  else if m = modeWarpWithDnsOverHttps then ascii "warp+doh"
  else if m = modeDnsOverTls then ascii "dot"
  else if m = modeWarpWithDnsOverTls then ascii "warp+dot"
  else if m = modeWarpProxy then ascii "proxy"
  else if m = modeTunnelOnly then ascii "tunnel_only"
  else ascii "unknown"

/-- Go `type modeMenu struct`: the checked flag of each of the seven checkboxes. -/
structure modeMenu where
  doh : Bool
  warp : Bool
  warpPlusDoh : Bool
  dot : Bool
  warpPlusDot : Bool
  proxy : Bool
  tunnelOnly : Bool
deriving DecidableEq

/-- The menu as `onReady` creates it: every checkbox added with `checked = false`. -/
def menuInit : modeMenu := ⟨false, false, false, false, false, false, false⟩

/-- Go `(*modeMenu).checked`. -/
def modeMenu.checked (m : modeMenu) : mode :=
  if m.doh then modeDnsOverHttps
  else if m.warp then modeWarp
  else if m.warpPlusDoh then modeWarpWithDnsOverHttps
  else if m.dot then modeDnsOverTls
  else if m.warpPlusDot then modeWarpWithDnsOverTls
  else if m.proxy then modeWarpProxy
  else if m.tunnelOnly then modeTunnelOnly
  else modeUnknown

/-- Go `(*modeMenu).check`: uncheck all seven, then check the one the switch selects. -/
def modeMenu.check (m : modeMenu) (md : mode) : modeMenu :=
  let u : modeMenu :=
    { m with doh := false, warp := false, warpPlusDoh := false, dot := false,
             warpPlusDot := false, proxy := false, tunnelOnly := false }
  if md = modeDnsOverHttps then { u with doh := true }
  else if md = modeWarp then { u with warp := true }
  else if md = modeWarpWithDnsOverHttps then { u with warpPlusDoh := true }
  else if md = modeDnsOverTls then { u with dot := true }
  else if md = modeWarpWithDnsOverTls then { u with warpPlusDot := true }
  else if md = modeWarpProxy then { u with proxy := true }
  else if md = modeTunnelOnly then { u with tunnelOnly := true }
  else u

/-- The name of the external executable, Go `const bin`. -/
def bin : Bytes := ascii "warp-cli"

/-- Go `(*Applet).changeMode`.  `runErr` is whether `cmd.Run()` returns an error
if the command is started.  The result is the menu after the deferred
`check(mode)` and the argument vectors of the commands that were started. -/
def changeMode (md : mode) (menu : modeMenu) (runErr : Bool) : modeMenu × List (List Bytes) :=
  if md = menu.checked then (menu.check md, [])
  else
    let started := [[bin, ascii "mode", cmdArg md]]
    if runErr then (menu.check md, started)
    else (menu.check md, started)

/-- The number of checked checkboxes. -/
def modeMenu.count (m : modeMenu) : Nat :=
  m.doh.toNat + m.warp.toNat + m.warpPlusDoh.toNat + m.dot.toNat + m.warpPlusDot.toNat
    + m.proxy.toNat + m.tunnelOnly.toNat

/-- At most one of the seven checkboxes is checked. -/
def modeMenu.atMostOne (m : modeMenu) : Prop := m.count ≤ 1

instance (m : modeMenu) : Decidable m.atMostOne := by
  unfold modeMenu.atMostOne; infer_instance

/-- The menu in which the checkbox of `md` is checked when `md` is the name of
one of the seven modes, and no other checkbox is. -/
def onlyChecked (md : mode) : modeMenu :=
  { doh := decide (md = modeDnsOverHttps)
    warp := decide (md = modeWarp)
    warpPlusDoh := decide (md = modeWarpWithDnsOverHttps)
    dot := decide (md = modeDnsOverTls)
    warpPlusDot := decide (md = modeWarpWithDnsOverTls)
    proxy := decide (md = modeWarpProxy)
    tunnelOnly := decide (md = modeTunnelOnly) }

/-- The seven mode names. -/
def sevenModes : List mode :=
  [modeDnsOverHttps, modeWarp, modeWarpWithDnsOverHttps, modeDnsOverTls,
   modeWarpWithDnsOverTls, modeWarpProxy, modeTunnelOnly]

/-- The values of the mode enumeration: the seven modes and `Unknown`. -/
def allModes : List mode := sevenModes ++ [modeUnknown]

/-! ## UTF-8 decoding and white space (Go packages `unicode/utf8`, `unicode`) -/

def RuneError : Nat := 0xFFFD
def RuneSelf : Nat := 0x80
def UTFMax : Nat := 4

/-- An entry of Go's table `utf8.first` together with its accept range: an
ASCII byte (`as`), an invalid first byte (`xx`), or the first byte of a
sequence of `sz` bytes whose second byte must lie in `[lo, hi]`. -/
inductive firstByte where
  | as
  | xx
  | lead (sz lo hi : Nat)
deriving DecidableEq

/-- Go's table `utf8.first`, combined with `utf8.acceptRanges`. A value that is
not a byte (above `0xFF`) is treated like the invalid bytes `0xF5..0xFF`. -/
def first (p0 : Nat) : firstByte :=
  if p0 < 0x80 then .as
  else if p0 < 0xC2 then .xx
  else if p0 ≤ 0xDF then .lead 2 0x80 0xBF
  else if p0 = 0xE0 then .lead 3 0xA0 0xBF
  else if p0 ≤ 0xEC then .lead 3 0x80 0xBF
  else if p0 = 0xED then .lead 3 0x80 0x9F
  else if p0 ≤ 0xEF then .lead 3 0x80 0xBF
  else if p0 = 0xF0 then .lead 4 0x90 0xBF
  else if p0 ≤ 0xF3 then .lead 4 0x80 0xBF
  else if p0 = 0xF4 then .lead 4 0x80 0x8F
  else .xx

/-- The rune of a two-byte sequence: `rune(p0&mask2)<<6 | rune(b1&maskx)`. -/
def rune2 (p0 b1 : Nat) : Nat := (p0 &&& 0x1F) <<< 6 ||| (b1 &&& 0x3F)

/-- The rune of a three-byte sequence. -/
def rune3 (p0 b1 b2 : Nat) : Nat :=
  (p0 &&& 0x0F) <<< 12 ||| (b1 &&& 0x3F) <<< 6 ||| (b2 &&& 0x3F)

/-- The rune of a four-byte sequence. -/
def rune4 (p0 b1 b2 b3 : Nat) : Nat :=
  (p0 &&& 0x07) <<< 18 ||| (b1 &&& 0x3F) <<< 12 ||| (b2 &&& 0x3F) <<< 6 ||| (b3 &&& 0x3F)

/-- Go `utf8.DecodeRune`: the first rune of `p` and its width in bytes;
`(RuneError, 1)` for an invalid encoding, `(RuneError, 0)` for empty `p`. -/
def utf8DecodeRune (p : Bytes) : Nat × Nat :=
  match p with
  | [] => (RuneError, 0)
  | p0 :: t =>
    match first p0 with
    | .as => (p0, 1)
    | .xx => (RuneError, 1)
    | .lead sz lo hi =>
      if p.length < sz then (RuneError, 1)
      else match t with
        | [] => (RuneError, 1)
        | b1 :: t1 =>
          if b1 < lo ∨ hi < b1 then (RuneError, 1)
          else if sz ≤ 2 then (rune2 p0 b1, 2)
          else match t1 with
            | [] => (RuneError, 1)
            | b2 :: t2 =>
              if b2 < 0x80 ∨ 0xBF < b2 then (RuneError, 1)
              else if sz ≤ 3 then (rune3 p0 b1 b2, 3)
              else match t2 with
                | [] => (RuneError, 1)
                | b3 :: _ =>
                  if b3 < 0x80 ∨ 0xBF < b3 then (RuneError, 1)
                  else (rune4 p0 b1 b2 b3, 4)

/-- Go `utf8.RuneStart`. -/
def utf8RuneStart (b : Nat) : Bool := (b &&& 0xC0) != 0x80

/-- The backward scan of `utf8.DecodeLastRune`:
`for start--; start >= lim; start-- { if RuneStart(p[start]) { break } }`,
entered with `start` already decremented. -/
def scanStart (p : Bytes) (lim : Int) : Nat → Int → Int
  | 0, start => start
  | n + 1, start =>
    if start ≥ lim then
      if utf8RuneStart (p.getD start.toNat 0) then start
      else scanStart p lim n (start - 1)
    else start

/-- Go `utf8.DecodeLastRune`. -/
def utf8DecodeLastRune (p : Bytes) : Nat × Nat :=
  let endp := p.length
  if endp = 0 then (RuneError, 0)
  else
    let r := p.getD (endp - 1) 0
    if r < RuneSelf then (r, 1)
    else
      let lim : Int := if (0 : Int) ≤ (endp : Int) - UTFMax then (endp : Int) - UTFMax else 0
      let start0 := scanStart p lim UTFMax ((endp : Int) - 2)
      let start := (if start0 < 0 then 0 else start0).toNat
      let rs := utf8DecodeRune (p.drop start)
      if start + rs.2 ≠ endp then (RuneError, 1) else rs

/-- Go `unicode.IsSpace`: the Latin-1 spaces, and above Latin-1 the code
points with the property White_Space. -/
def unicodeIsSpace (r : Nat) : Bool :=
  if r ≤ 0xFF then
    r = 0x09 ∨ r = 0x0A ∨ r = 0x0B ∨ r = 0x0C ∨ r = 0x0D ∨ r = 0x20 ∨ r = 0x85 ∨ r = 0xA0
  else
    r = 0x1680 ∨ (0x2000 ≤ r ∧ r ≤ 0x200A) ∨ r = 0x2028 ∨ r = 0x2029 ∨ r = 0x202F
      ∨ r = 0x205F ∨ r = 0x3000

/-- Go `bytes.indexFunc(s, f, truth)` run for at most `fuel` runes: the index of
the first rune `r` with `f r = truth`. -/
def indexFuncFuel (f : Nat → Bool) (truth : Bool) : Nat → Bytes → Option Nat
  | 0, _ => none
  | n + 1, s =>
    match s with
    | [] => none
    | c :: _ =>
      let rw := if c ≥ RuneSelf then utf8DecodeRune s else (c, 1)
      if f rw.1 = truth then some 0
      else (indexFuncFuel f truth n (s.drop rw.2)).map (· + rw.2)

/-- Go `bytes.indexFunc`; every round consumes a byte, so `len(s)` rounds suffice. -/
def indexFunc (s : Bytes) (f : Nat → Bool) (truth : Bool) : Option Nat :=
  indexFuncFuel f truth s.length s

/-- The rune and width `lastIndexFunc` reads at the end of `s[0:i]`:
`r, size := rune(s[i-1]), 1`, replaced by `utf8.DecodeLastRune(s[0:i])` when
`r >= utf8.RuneSelf`. -/
def lastRune (s : Bytes) : Nat × Nat :=
  let c := s.getD (s.length - 1) 0
  if c ≥ RuneSelf then utf8DecodeLastRune s else (c, 1)

/-- Go `bytes.lastIndexFunc(s, f, truth)` run for at most `fuel` runes on the
prefix `s[0:i]` that is still to be examined. -/
def lastIndexFuncFuel (f : Nat → Bool) (truth : Bool) : Nat → Bytes → Option Nat
  | 0, _ => none
  | n + 1, s =>
    if s = [] then none
    else
      let rw := lastRune s
      let i := s.length - rw.2
      if f rw.1 = truth then some i
      else lastIndexFuncFuel f truth n (s.take i)

/-- Go `bytes.lastIndexFunc`. -/
def lastIndexFunc (s : Bytes) (f : Nat → Bool) (truth : Bool) : Option Nat :=
  lastIndexFuncFuel f truth s.length s

/-- Go `bytes.TrimLeftFunc`. -/
def bytesTrimLeftFunc (s : Bytes) (f : Nat → Bool) : Bytes :=
  match indexFunc s f false with
  | none => []
  | some i => s.drop i

/-- Go `bytes.TrimRightFunc`. -/
def bytesTrimRightFunc (s : Bytes) (f : Nat → Bool) : Bytes :=
  match lastIndexFunc s f false with
  | some i =>
    if s.getD i 0 ≥ RuneSelf then s.take (i + (utf8DecodeRune (s.drop i)).2)
    else s.take (i + 1)
  | none => s.take 0

/-- Go `bytes.TrimFunc`. -/
def bytesTrimFunc (s : Bytes) (f : Nat → Bool) : Bytes :=
  bytesTrimRightFunc (bytesTrimLeftFunc s f) f

/-- Go's table `bytes.asciiSpace`. -/
def asciiSpace (c : Nat) : Bool :=
  c = 0x09 ∨ c = 0x0A ∨ c = 0x0B ∨ c = 0x0C ∨ c = 0x0D ∨ c = 0x20

/-- The second loop of `bytes.TrimSpace`, on the reversal of `s[start:stop]`:
drop ASCII spaces from the end, hand over to `TrimFunc` at a non-ASCII byte. -/
def trimSpaceStop : Bytes → Bytes
  | [] => []
  | c :: t =>
    if c ≥ RuneSelf then bytesTrimFunc (c :: t).reverse unicodeIsSpace
    else if asciiSpace c then trimSpaceStop t
    else (c :: t).reverse

/-- Go `bytes.TrimSpace`: the first loop drops ASCII spaces from the front and
hands over to `TrimFunc` at a non-ASCII byte; then the second loop runs. -/
def bytesTrimSpace : Bytes → Bytes
  | [] => trimSpaceStop []
  | c :: t =>
    if c ≥ RuneSelf then bytesTrimFunc (c :: t) unicodeIsSpace
    else if asciiSpace c then bytesTrimSpace t
    else trimSpaceStop (c :: t).reverse

/-! ## Settings: `updateModeFromSettings` -/

/-- Go `(*bytes.Buffer).ReadBytes(delim)`: the bytes up to and including the
first `delim`, the bytes left in the buffer, and whether the error is
`io.EOF` (no `delim` found: everything that was left is returned). -/
def readBytes (delim : Nat) : Bytes → Bytes × Bytes × Bool
  | [] => ([], [], true)
  | c :: cs =>
    if c = delim then ([c], cs, false)
    else
      let r := readBytes delim cs
      (c :: r.1, r.2.1, r.2.2)

/-- Go `const sep = "Mode:"`. -/
def sep : Bytes := ascii "Mode:"

/-- The loop `for i, v := range string(b)` of `updateModeFromSettings`, run for
at most `fuel` runes: the byte index of the first rune with `unicode.IsSpace`. -/
def rangeSpaceFuel : Nat → Bytes → Option Nat
  | 0, _ => none
  | n + 1, s =>
    match s with
    | [] => none
    | _ :: _ =>
      let rw := utf8DecodeRune s
      if unicodeIsSpace rw.1 then some 0
      else (rangeSpaceFuel n (s.drop rw.2)).map (· + rw.2)

/-- Lines 321 to 327 of `applet.go`: `b = bytes.TrimSpace(b[i+len(sep):])`, then
`b = b[:i]` at the first white space rune.  `i` is the index of the marker. -/
def modeToken (b : Bytes) (i : Nat) : Bytes :=
  let b := bytesTrimSpace (b.drop (i + sep.length))
  match rangeSpaceFuel b.length b with
  | some j => b.take j
  | none => b

/-- The `for` loop of `updateModeFromSettings` on the buffer `buf`, run for at
most `fuel` rounds. -/
def settingsLoop : Nat → Bytes → modeMenu → modeMenu
  | 0, _, menu => menu
  | n + 1, buf, menu =>
    let r := readBytes 10 buf
    if r.2.2 then menu
    else
      match bytesIndex r.1 sep with
      | none => settingsLoop n r.2.1 menu
      | some i => menu.check (modeToken r.1 i)

/-- Go `(*Applet).updateModeFromSettings`, as a function of the run of
`warp-cli settings` and of the menu before the call.  A round that does not end
the loop takes at least one byte from the buffer, so `len + 1` rounds suffice. -/
def updateModeFromSettings (run : cmdRun) (menu : modeMenu) : modeMenu :=
  if run.err then menu
  else settingsLoop (run.out.length + 1) run.out menu

/-- Cut at the first white space rune, if there is one: `s[:i]` for
`i = bytes.IndexFunc(s, unicode.IsSpace)`. -/
def cutAtSpace (s : Bytes) : Bytes :=
  match indexFunc s unicodeIsSpace true with
  | some i => s.take i
  | none => s

/-- The list is empty or starts with a byte that is not a continuation byte
of UTF-8 (`0x80..0xBF`). -/
def Boundary (t : Bytes) : Prop := ∀ d t', t = d :: t' → d < 0x80 ∨ 0xBF < d

/-- The list is empty or its first rune is white space. -/
def SpaceHead (t : Bytes) : Prop := t = [] ∨ unicodeIsSpace (utf8DecodeRune t).1 = true

/-- The list is empty or starts with an ASCII byte that is not white space. -/
def NoSpaceHead (l : Bytes) : Prop :=
  ∀ c l', l = c :: l' → c < 0x80 ∧ unicodeIsSpace c = false

/-- The token as the specification describes it: trim leading white space, then
cut at the first white space character. -/
def firstField (x : Bytes) : Bytes :=
  cutAtSpace (bytesTrimLeftFunc x unicodeIsSpace)

/-- The output made of the given lines, each followed by a newline. -/
def unlines : List Bytes → Bytes
  | [] => []
  | l :: ls => l ++ 10 :: unlines ls

/-! ## The reconciliation loop: `mustUpdateStatus` -/

/-- Go `time.Millisecond`, in nanoseconds. -/
def Millisecond : Nat := 1000000
/-- Go `time.Second`. -/
def Second : Nat := 1000 * Millisecond

/-- What `mustUpdateStatus` does, in order: `time.Sleep(d)` and status queries
(the status `updateStatus` returned). -/
inductive pollEvent where
  | sleep (d : Nat)
  | query (s : status)
deriving DecidableEq

/-- The `for` loop of `mustUpdateStatus` with the current `dur`, against the
scripted runs of `warp-cli status`.  The flag tells whether the loop returned;
it is `false` when the script ends while the loop is still polling. -/
def mustUpdateStatusLoop (dur : Nat) : List cmdRun → List pollEvent × Bool
  | [] => ([], false)
  | r :: rs =>
    let s := updateStatus r
    if s = statusConnected ∨ s = statusDisconnected ∨ s = statusUnknown then
      ([.query s], true)
    else
      let dur := if dur < 2 * Second then dur + 100 * Millisecond else dur
      let rest := mustUpdateStatusLoop dur rs
      (.query s :: .sleep dur :: rest.1, rest.2)

/-- Go `(*Applet).mustUpdateStatus`. -/
def mustUpdateStatus (script : List cmdRun) : List pollEvent × Bool :=
  let dur := 200 * Millisecond
  let rest := mustUpdateStatusLoop dur script
  (.sleep dur :: rest.1, rest.2)

/-- The durations of the sleeps of a trace, in order. -/
def sleepsOf : List pollEvent → List Nat
  | [] => []
  | .sleep d :: es => d :: sleepsOf es
  | .query _ :: es => sleepsOf es

/-- The statuses of the queries of a trace, in order. -/
def queriesOf : List pollEvent → List status
  | [] => []
  | .sleep _ :: es => queriesOf es
  | .query s :: es => s :: queriesOf es

/-- The time slept after the last query so far (`acc`), closed at every further
query: the waits between consecutive queries of a trace that starts right after
a query. -/
def waitsFrom (acc : Nat) : List pollEvent → List Nat
  | [] => []
  | .sleep d :: es => waitsFrom (acc + d) es
  | .query _ :: es => acc :: waitsFrom 0 es

/-- The wait between the i-th and the (i+1)-th query of a trace, for each i. -/
def waitsBetweenQueries : List pollEvent → List Nat
  | [] => []
  | .sleep _ :: es => waitsBetweenQueries es
  | .query _ :: es => waitsFrom 0 es

/-- A status after which `mustUpdateStatus` stops polling. -/
def terminal (s : status) : Bool :=
  decide (s = statusConnected ∨ s = statusDisconnected ∨ s = statusUnknown)

/-- The duration after `i` increases: `min(200 + 100*i, 2000)` milliseconds. -/
def durAt (i : Nat) : Nat := min (200 + 100 * i) 2000 * Millisecond

/-- The trace of the loop over queries that return the non-terminal statuses
`ss`, entered after `i` increases of the duration: each query is followed by
the sleep of the duration after one more increase. -/
def pollTrace (i : Nat) : List status → List pollEvent
  | [] => []
  | s :: ss => .query s :: .sleep (durAt (i + 1)) :: pollTrace (i + 1) ss

/-- A run of `warp-cli status` that reports "Connecting". -/
def runConnecting : cmdRun := ⟨ascii "Status update: Connecting\n", false⟩
/-- A run of `warp-cli status` that reports "Connected". -/
def runConnected : cmdRun := ⟨ascii "Status update: Connected\n", false⟩

/-! ## Launch -/

/-- The error of `os.OpenFile(path, os.O_CREATE|os.O_EXCL, 0o644)`, as far as
`Launch` tells errors apart: `os.IsExist(err)` or not. -/
inductive openError where
  | exist
  | other
deriving DecidableEq

/-- The effects of `Launch`, in order. -/
inductive launchEvent where
  | openExcl (path : Bytes)
  | printAlreadyRunning
  | printWithoutLock
  | systrayRun
deriving DecidableEq

/-- Go `Applet.lock`: the path, and whether `file` is non-nil. -/
structure lockState where
  path : Bytes
  file : Bool
deriving DecidableEq

/-- Go `(*Applet).Launch`, as a function of the outcome of the exclusive
creation of the lock file (`none`: created).  `systrayRun` stands for
`systray.Run(a.onReady, a.onExit)`, the only place that calls `onReady`. -/
def Launch (lock : lockState) (created : Option openError) : lockState × List launchEvent :=
  match created with
  | some e =>
    let lock := { lock with file := false }
    if e = openError.exist then (lock, [.openExcl lock.path, .printAlreadyRunning])
    else (lock, [.openExcl lock.path, .printWithoutLock, .systrayRun])
  | none => ({ lock with file := true }, [.openExcl lock.path, .systrayRun])

/-! ## Operations on the mode checkboxes -/

/-- The operations of the applet that touch the mode checkboxes. -/
inductive menuOp where
  | check (md : mode)
  | changeMode (md : mode) (runErr : Bool)
  | updateModeFromSettings (run : cmdRun)

/-- One operation applied to the menu. -/
def applyOp (op : menuOp) (menu : modeMenu) : modeMenu :=
  match op with
  | .check md => menu.check md
  | .changeMode md runErr => (changeMode md menu runErr).1
  | .updateModeFromSettings run => updateModeFromSettings run menu

/-! # Theorems -/

/-! ## Substring search -/

theorem bytesIndex_isSome_iff (s sub : Bytes) : (bytesIndex s sub).isSome = true ↔ sub <:+: s := by
  induction s with
  | nil =>
    unfold bytesIndex
    by_cases h : sub.isPrefixOf [] = true
    · simp only [h, if_true, Option.isSome_some, true_iff]
      exact (List.isPrefixOf_iff_prefix.mp h).isInfix
    · simp only [h, Bool.false_eq_true, if_false, Option.isSome_none, false_iff]
      intro hi
      apply h
      rw [List.isPrefixOf_iff_prefix]
      rw [List.infix_nil] at hi
      subst hi
      exact List.nil_prefix
  | cons c cs ih =>
    unfold bytesIndex
    by_cases h : sub.isPrefixOf (c :: cs) = true
    · simp only [h, if_true, Option.isSome_some, true_iff]
      exact (List.isPrefixOf_iff_prefix.mp h).isInfix
    · simp only [h, Bool.false_eq_true, if_false, Option.isSome_map']
      rw [ih, List.infix_cons_iff, ← List.isPrefixOf_iff_prefix]
      simp [h]

theorem bytesContains_iff (s sub : Bytes) : bytesContains s sub = true ↔ sub <:+: s :=
  bytesIndex_isSome_iff s sub

/-- C1: on the output of a successful `status` command `updateStatus` returns
the first marker, in the order Connecting, Disconnecting, Connected,
Disconnected, No Network, that occurs in the output as a contiguous run of
bytes, and Unknown when none occurs.  Hence an output that contains exactly one
marker gets that marker, and an output with both "Connecting" and "Connected"
gets Connecting. -/
theorem updateStatus_first_marker (output : Bytes) :
    updateStatus ⟨output, false⟩ = firstMarker output
    ∧ (∀ mk ∈ markerOrder, mk <:+: output →
        (∀ other ∈ markerOrder, other <:+: output → other = mk) →
        updateStatus ⟨output, false⟩ = mk)
    ∧ (statusConnecting <:+: output → statusConnected <:+: output →
        updateStatus ⟨output, false⟩ = statusConnecting)
    ∧ ((∀ mk ∈ markerOrder, ¬ mk <:+: output) →
        updateStatus ⟨output, false⟩ = statusUnknown) := by
  have key : updateStatus ⟨output, false⟩ = firstMarker output := by
    simp only [updateStatus, firstMarker, markerOrder, List.find?, bytesContains_iff,
      Bool.false_eq_true, if_false]
    by_cases h1 : statusConnecting <:+: output
    · simp [h1]
    by_cases h2 : statusDisconnecting <:+: output
    · simp [h1, h2]
    by_cases h3 : statusConnected <:+: output
    · simp [h1, h2, h3]
    by_cases h4 : statusDisconnected <:+: output
    · simp [h1, h2, h3, h4]
    by_cases h5 : statusNoNetwork <:+: output
    · simp [h1, h2, h3, h4, h5]
    · simp [h1, h2, h3, h4, h5]
  refine ⟨key, ?_, ?_, ?_⟩
  · intro mk hmk hin honly
    rw [key]
    unfold firstMarker
    cases hf : markerOrder.find? (fun mk => decide (mk <:+: output)) with
    | none =>
      have := List.find?_eq_none.mp hf mk hmk
      simp [hin] at this
    | some found =>
      have hmem := List.mem_of_find?_eq_some hf
      have hp := List.find?_some hf
      simp only [decide_eq_true_eq] at hp
      simpa using honly found hmem hp
  · intro h1 _
    rw [key]
    simp [firstMarker, markerOrder, List.find?, h1]
  · intro hnone
    rw [key]
    unfold firstMarker
    rw [List.find?_eq_none.mpr]
    · rfl
    · intro mk hmk
      simpa using hnone mk hmk

theorem updateStatus_first_marker_witness :
    statusConnecting <:+: ascii "Connecting, was Connected"
    ∧ statusConnected <:+: ascii "Connecting, was Connected"
    ∧ updateStatus ⟨ascii "Connecting, was Connected", false⟩ = statusConnecting :=
  ⟨by decide, by decide,
    (updateStatus_first_marker (ascii "Connecting, was Connected")).2.2.1 (by decide) (by decide)⟩

/-! ## The mode menu -/

theorem check_eq_onlyChecked (menu : modeMenu) (md : mode) : menu.check md = onlyChecked md := by
  unfold modeMenu.check onlyChecked
  by_cases h1 : md = modeDnsOverHttps
  · subst h1; decide
  by_cases h2 : md = modeWarp
  · subst h2; decide
  by_cases h3 : md = modeWarpWithDnsOverHttps
  · subst h3; decide
  by_cases h4 : md = modeDnsOverTls
  · subst h4; decide
  by_cases h5 : md = modeWarpWithDnsOverTls
  · subst h5; decide
  by_cases h6 : md = modeWarpProxy
  · subst h6; decide
  by_cases h7 : md = modeTunnelOnly
  · subst h7; decide
  simp [h1, h2, h3, h4, h5, h6, h7]

theorem onlyChecked_not_seven (md : mode) (h : md ∉ sevenModes) : onlyChecked md = menuInit := by
  simp only [sevenModes, List.mem_cons, List.mem_singleton, not_or, List.mem_nil_iff,
    or_false] at h
  obtain ⟨h1, h2, h3, h4, h5, h6, h7⟩ := h
  simp [onlyChecked, menuInit, h1, h2, h3, h4, h5, h6, h7]

theorem onlyChecked_seven (md : mode) (h : md ∈ sevenModes) :
    (onlyChecked md).count = 1 ∧ (onlyChecked md).checked = md := by
  simp only [sevenModes, List.mem_cons, List.mem_singleton, List.mem_nil_iff, or_false] at h
  rcases h with h | h | h | h | h | h | h <;> subst h <;> decide

theorem onlyChecked_atMostOne (md : mode) : (onlyChecked md).atMostOne := by
  by_cases h : md ∈ sevenModes
  · unfold modeMenu.atMostOne
    rw [(onlyChecked_seven md h).1]
  · rw [onlyChecked_not_seven md h]
    decide

theorem onlyChecked_checked (md : mode) (h : md ∈ allModes) : (onlyChecked md).checked = md := by
  simp only [allModes, List.mem_append, List.mem_singleton] at h
  rcases h with h | h
  · exact (onlyChecked_seven md h).2
  · subst h; decide

theorem atMostOne_eq_onlyChecked (menu : modeMenu) (h : menu.atMostOne) :
    menu = onlyChecked menu.checked := by
  obtain ⟨a, b, c, d, e, f, g⟩ := menu
  revert h
  cases a <;> cases b <;> cases c <;> cases d <;> cases e <;> cases f <;> cases g <;> decide

theorem settingsLoop_cases (n : Nat) (buf : Bytes) (menu : modeMenu) :
    settingsLoop n buf menu = menu ∨ ∃ tok, settingsLoop n buf menu = menu.check tok := by
  induction n generalizing buf with
  | zero => left; rfl
  | succ n ih =>
    unfold settingsLoop
    simp only
    split_ifs with h
    · left; rfl
    · cases hi : bytesIndex (readBytes 10 buf).1 sep with
      | none => simpa using ih _
      | some i => right; exact ⟨_, rfl⟩

theorem applyOp_atMostOne (op : menuOp) (menu : modeMenu) (h : menu.atMostOne) :
    (applyOp op menu).atMostOne := by
  cases op with
  | check md =>
    simp only [applyOp, check_eq_onlyChecked]
    exact onlyChecked_atMostOne md
  | changeMode md runErr =>
    have : (changeMode md menu runErr).1 = menu.check md := by
      unfold changeMode
      split_ifs <;> rfl
    simp only [applyOp, this, check_eq_onlyChecked]
    exact onlyChecked_atMostOne md
  | updateModeFromSettings run =>
    simp only [applyOp, updateModeFromSettings]
    split_ifs
    · exact h
    · rcases settingsLoop_cases (run.out.length + 1) run.out menu with h1 | ⟨tok, h1⟩
      · rw [h1]; exact h
      · rw [h1, check_eq_onlyChecked]; exact onlyChecked_atMostOne tok

/-- C7: for every mode value `md` and every menu with at most one checkbox
checked, `changeMode md` starts the external command `warp-cli mode <cmdArg md>`
exactly when `md` differs from the checked mode (and starts nothing else);
whether the command was skipped, succeeded or failed, `checked()` returns `md`
afterwards; and when `md` is the checked mode no command is started and the
menu is unchanged. -/
theorem changeMode_command_iff_differs (md : mode) (menu : modeMenu) (runErr : Bool)
    (hmd : md ∈ allModes) (hone : menu.atMostOne) :
    ((changeMode md menu runErr).2 =
        if md = menu.checked then [] else [[bin, ascii "mode", cmdArg md]])
    ∧ ((changeMode md menu runErr).2 ≠ [] ↔ md ≠ menu.checked)
    ∧ (changeMode md menu runErr).1.checked = md
    ∧ (md = menu.checked →
        (changeMode md menu runErr).2 = [] ∧ (changeMode md menu runErr).1 = menu) := by
  have h1 : (changeMode md menu runErr).1 = onlyChecked md := by
    rw [← check_eq_onlyChecked menu md]
    unfold changeMode
    split_ifs <;> rfl
  have h2 : (changeMode md menu runErr).2 =
      if md = menu.checked then [] else [[bin, ascii "mode", cmdArg md]] := by
    unfold changeMode
    split_ifs <;> rfl
  refine ⟨h2, ?_, ?_, ?_⟩
  · rw [h2]
    by_cases h : md = menu.checked <;> simp [h]
  · rw [h1]
    exact onlyChecked_checked md hmd
  · intro h
    refine ⟨by rw [h2, if_pos h], ?_⟩
    rw [h1, h]
    exact (atMostOne_eq_onlyChecked menu hone).symm

theorem changeMode_command_iff_differs_witness :
    modeWarp ∈ allModes ∧ (onlyChecked modeWarpProxy).atMostOne
    ∧ (changeMode modeWarp (onlyChecked modeWarpProxy) true).2
        = [[bin, ascii "mode", ascii "warp"]]
    ∧ (changeMode modeWarp (onlyChecked modeWarpProxy) true).1.checked = modeWarp :=
  ⟨by decide, by decide,
    (changeMode_command_iff_differs modeWarp (onlyChecked modeWarpProxy) true
      (by decide) (by decide)).1,
    (changeMode_command_iff_differs modeWarp (onlyChecked modeWarpProxy) true
      (by decide) (by decide)).2.2.1⟩

/-- C8: at most one of the seven mode checkboxes is checked at any time.  The
initial menu has none checked; `check`, `changeMode` (any mode, any command
outcome) and `updateModeFromSettings` (any output, or a failed command) keep
"at most one checked", so it holds after every sequence of these operations;
and after `check md` exactly the checkbox of `md` is checked when `md` is one of
the seven modes, and none is checked otherwise. -/
theorem atMostOne_checked_invariant :
    menuInit.atMostOne
    ∧ (∀ (op : menuOp) (menu : modeMenu), menu.atMostOne → (applyOp op menu).atMostOne)
    ∧ (∀ ops : List menuOp, (ops.foldl (fun menu op => applyOp op menu) menuInit).atMostOne)
    ∧ (∀ (menu : modeMenu) (md : mode), menu.check md = onlyChecked md
        ∧ (md ∈ sevenModes → (menu.check md).count = 1 ∧ (menu.check md).checked = md)
        ∧ (md ∉ sevenModes → (menu.check md).count = 0)) := by
  refine ⟨by decide, applyOp_atMostOne, ?_, ?_⟩
  · intro ops
    have gen : ∀ (l : List menuOp) (m : modeMenu), m.atMostOne →
        (l.foldl (fun menu op => applyOp op menu) m).atMostOne := by
      intro l
      induction l with
      | nil => intro m hm; exact hm
      | cons op l ih => intro m hm; exact ih _ (applyOp_atMostOne op m hm)
    exact gen ops menuInit (by decide)
  · intro menu md
    rw [check_eq_onlyChecked]
    refine ⟨rfl, onlyChecked_seven md, ?_⟩
    intro h
    rw [onlyChecked_not_seven md h]
    rfl

theorem atMostOne_checked_invariant_witness :
    (onlyChecked modeWarp).atMostOne
    ∧ (applyOp (.changeMode modeDnsOverTls false) (onlyChecked modeWarp)).atMostOne
    ∧ ((onlyChecked modeWarp).check modeTunnelOnly).checked = modeTunnelOnly :=
  ⟨by decide,
    atMostOne_checked_invariant.2.1 (.changeMode modeDnsOverTls false) (onlyChecked modeWarp)
      (by decide),
    ((atMostOne_checked_invariant.2.2.2 (onlyChecked modeWarp) modeTunnelOnly).2.1
      (by decide)).2⟩

/-! ## Launch -/

/-- C9: `Launch` runs the tray exactly when the exclusive creation of the lock
file did not fail with "already exists".  When it failed so, `Launch` only
prints a message after the attempt: the tray (and with it `onReady`) is not run,
and nothing removes or writes the lock file.  When the file was created, or the
creation failed for another reason, the tray is run. -/
theorem Launch_runs_tray_iff (lock : lockState) (created : Option openError) :
    (launchEvent.systrayRun ∈ (Launch lock created).2 ↔ created ≠ some openError.exist)
    ∧ (created = some openError.exist →
        (Launch lock created).2 = [.openExcl lock.path, .printAlreadyRunning]
        ∧ (Launch lock created).1 = { lock with file := false })
    ∧ (created = none →
        (Launch lock created).2 = [.openExcl lock.path, .systrayRun]
        ∧ (Launch lock created).1 = { lock with file := true })
    ∧ (created = some openError.other →
        (Launch lock created).2 = [.openExcl lock.path, .printWithoutLock, .systrayRun]
        ∧ (Launch lock created).1 = { lock with file := false }) := by
  cases created with
  | none => simp [Launch]
  | some e => cases e <;> simp [Launch]

theorem Launch_runs_tray_iff_witness :
    (Launch ⟨ascii "/tmp/warp-applet.lock", false⟩ (some openError.exist)).2
      = [.openExcl (ascii "/tmp/warp-applet.lock"), .printAlreadyRunning]
    ∧ (Launch ⟨ascii "/tmp/warp-applet.lock", false⟩ (some openError.exist)).1
      = ⟨ascii "/tmp/warp-applet.lock", false⟩ :=
  (Launch_runs_tray_iff ⟨ascii "/tmp/warp-applet.lock", false⟩ (some openError.exist)).2.1 rfl

/-! ## The reconciliation loop -/

theorem durAt_step (i : Nat) :
    (if durAt i < 2 * Second then durAt i + 100 * Millisecond else durAt i) = durAt (i + 1) := by
  unfold durAt Second Millisecond
  rcases Nat.le_total (200 + 100 * i) 2000 with h | h
  · rcases Nat.le_total (200 + 100 * (i + 1)) 2000 with h2 | h2
    · rw [Nat.min_eq_left h, Nat.min_eq_left h2]
      split_ifs <;> omega
    · rw [Nat.min_eq_left h, Nat.min_eq_right h2]
      split_ifs <;> omega
  · have h2 : 2000 ≤ 200 + 100 * (i + 1) := by omega
    rw [Nat.min_eq_right h, Nat.min_eq_right h2]
    split_ifs <;> omega

theorem durAt_bounds (i : Nat) : 200 * Millisecond ≤ durAt i ∧ durAt i ≤ 2000 * Millisecond := by
  unfold durAt Millisecond
  rcases Nat.le_total (200 + 100 * i) 2000 with h | h
  · rw [Nat.min_eq_left h]; omega
  · rw [Nat.min_eq_right h]; omega

theorem durAt_mono {i j : Nat} (h : i ≤ j) : durAt i ≤ durAt j := by
  unfold durAt
  apply Nat.mul_le_mul_right
  exact min_le_min (by omega) le_rfl

theorem durAt_succ_of_lt (i : Nat) (h : durAt i < 2000 * Millisecond) :
    durAt (i + 1) = durAt i + 100 * Millisecond := by
  have hs := durAt_step i
  have : durAt i < 2 * Second := by
    unfold Second; unfold Millisecond at *; omega
  rw [if_pos this] at hs
  exact hs.symm

theorem durAt_cap {i j : Nat} (h : i ≤ j) (hi : durAt i = 2000 * Millisecond) :
    durAt j = 2000 * Millisecond :=
  Nat.le_antisymm (durAt_bounds j).2 (hi ▸ durAt_mono h)

theorem terminal_iff (s : status) :
    terminal s = true ↔ (s = statusConnected ∨ s = statusDisconnected ∨ s = statusUnknown) := by
  simp [terminal]

theorem updateStatus_range (r : cmdRun) :
    updateStatus r = statusConnecting ∨ updateStatus r = statusDisconnecting
    ∨ updateStatus r = statusConnected ∨ updateStatus r = statusDisconnected
    ∨ updateStatus r = statusNoNetwork ∨ updateStatus r = statusUnknown := by
  unfold updateStatus
  by_cases h0 : r.err = true
  · simp [h0]
  by_cases h1 : bytesContains r.out statusConnecting = true
  · simp [h0, h1]
  by_cases h2 : bytesContains r.out statusDisconnecting = true
  · simp [h0, h1, h2]
  by_cases h3 : bytesContains r.out statusConnected = true
  · simp [h0, h1, h2, h3]
  by_cases h4 : bytesContains r.out statusDisconnected = true
  · simp [h0, h1, h2, h3, h4]
  by_cases h5 : bytesContains r.out statusNoNetwork = true
  · simp [h0, h1, h2, h3, h4, h5]
  · simp [h0, h1, h2, h3, h4, h5]

theorem terminal_false_iff (r : cmdRun) :
    terminal (updateStatus r) = false ↔
      (updateStatus r = statusConnecting ∨ updateStatus r = statusDisconnecting
        ∨ updateStatus r = statusNoNetwork) := by
  rcases updateStatus_range r with h | h | h | h | h | h <;> rw [h] <;> decide

/-- The loop on a script whose first terminal status comes after the runs `pre`. -/
theorem mustUpdateStatusLoop_trace (pre : List cmdRun) (r : cmdRun) (post : List cmdRun)
    (i : Nat) (hpre : ∀ p ∈ pre, terminal (updateStatus p) = false)
    (hr : terminal (updateStatus r) = true) :
    mustUpdateStatusLoop (durAt i) (pre ++ r :: post)
      = (pollTrace i (pre.map updateStatus) ++ [.query (updateStatus r)], true) := by
  induction pre generalizing i with
  | nil =>
    rw [terminal_iff] at hr
    simp [mustUpdateStatusLoop, pollTrace, hr]
  | cons p pre ih =>
    have hp : ¬ (updateStatus p = statusConnected ∨ updateStatus p = statusDisconnected
        ∨ updateStatus p = statusUnknown) := by
      rw [← terminal_iff]
      simp [hpre p (List.mem_cons_self _ _)]
    have ih2 := ih (i + 1) (fun q hq => hpre q (List.mem_cons_of_mem _ hq))
    simp only [List.cons_append, mustUpdateStatusLoop, if_neg hp, durAt_step,
      List.map_cons, pollTrace, List.append_eq]
    rw [ih2]

/-- The loop on a script without a terminal status: it is still polling when
the script ends. -/
theorem mustUpdateStatusLoop_polling (pre : List cmdRun) (i : Nat)
    (hpre : ∀ p ∈ pre, terminal (updateStatus p) = false) :
    mustUpdateStatusLoop (durAt i) pre = (pollTrace i (pre.map updateStatus), false) := by
  induction pre generalizing i with
  | nil => rfl
  | cons p pre ih =>
    have hp : ¬ (updateStatus p = statusConnected ∨ updateStatus p = statusDisconnected
        ∨ updateStatus p = statusUnknown) := by
      rw [← terminal_iff]
      simp [hpre p (List.mem_cons_self _ _)]
    have ih2 := ih (i + 1) (fun q hq => hpre q (List.mem_cons_of_mem _ hq))
    simp only [mustUpdateStatusLoop, if_neg hp, durAt_step, ih2, List.map_cons, pollTrace]

theorem durAt_zero : durAt 0 = 200 * Millisecond := by decide

theorem waitsFrom_pollTrace (acc i : Nat) (ss : List status) (t : status) :
    waitsFrom acc (pollTrace i ss ++ [.query t])
      = acc :: (List.range ss.length).map (fun j => durAt (i + 1 + j)) := by
  induction ss generalizing acc i with
  | nil => simp [pollTrace, waitsFrom]
  | cons s ss ih =>
    have shift : ∀ j, i + 1 + 1 + j = i + 1 + (j + 1) := by intro j; omega
    simp only [pollTrace, List.cons_append, waitsFrom, List.append_eq, Nat.zero_add,
      List.length_cons, List.range_succ_eq_map, List.map_cons, List.map_map, Nat.add_zero]
    rw [ih]
    simp only [shift, Function.comp_def, Nat.succ_eq_add_one]

theorem queriesOf_pollTrace (i : Nat) (ss : List status) (tl : List pollEvent) :
    queriesOf (pollTrace i ss ++ tl) = ss ++ queriesOf tl := by
  induction ss generalizing i with
  | nil => rfl
  | cons s ss ih => simp [pollTrace, queriesOf, ih]

theorem sleepsOf_pollTrace (i : Nat) (ss : List status) (tl : List pollEvent) :
    sleepsOf (pollTrace i ss ++ tl)
      = (List.range ss.length).map (fun j => durAt (i + 1 + j)) ++ sleepsOf tl := by
  induction ss generalizing i with
  | nil => rfl
  | cons s ss ih =>
    have shift : ∀ j, i + 1 + 1 + j = i + 1 + (j + 1) := by intro j; omega
    simp only [pollTrace, List.cons_append, sleepsOf, List.append_eq, List.length_cons,
      List.range_succ_eq_map, List.map_cons, List.map_map, Nat.add_zero]
    rw [ih]
    simp only [shift, Function.comp_def, Nat.succ_eq_add_one, List.cons_append]

theorem split_first_terminal (script : List cmdRun)
    (h : ∃ r ∈ script, terminal (updateStatus r) = true) :
    ∃ pre r post, script = pre ++ r :: post
      ∧ (∀ p ∈ pre, terminal (updateStatus p) = false)
      ∧ terminal (updateStatus r) = true
      ∧ script.findIdx (fun r => terminal (updateStatus r)) = pre.length := by
  induction script with
  | nil => simp at h
  | cons a rest ih =>
    by_cases ha : terminal (updateStatus a) = true
    · exact ⟨[], a, rest, rfl, by simp, ha, by simp [List.findIdx_cons, ha]⟩
    · have hrest : ∃ r ∈ rest, terminal (updateStatus r) = true := by
        obtain ⟨r, hr, hterm⟩ := h
        rcases List.mem_cons.mp hr with rfl | hr
        · exact absurd hterm ha
        · exact ⟨r, hr, hterm⟩
      obtain ⟨pre, r, post, heq, hpre, hr, hidx⟩ := ih hrest
      refine ⟨a :: pre, r, post, by rw [heq]; rfl, ?_, hr, ?_⟩
      · intro p hp
        rcases List.mem_cons.mp hp with rfl | hp
        · simpa using ha
        · exact hpre p hp
      · simp [List.findIdx_cons, ha, hidx]

theorem mustUpdateStatus_trace (pre : List cmdRun) (r : cmdRun) (post : List cmdRun)
    (hpre : ∀ p ∈ pre, terminal (updateStatus p) = false)
    (hr : terminal (updateStatus r) = true) :
    mustUpdateStatus (pre ++ r :: post)
      = (.sleep (200 * Millisecond)
          :: (pollTrace 0 (pre.map updateStatus) ++ [.query (updateStatus r)]), true) := by
  have h := mustUpdateStatusLoop_trace pre r post 0 hpre hr
  rw [durAt_zero] at h
  simp only [mustUpdateStatus, h]

theorem mustUpdateStatus_polling (pre : List cmdRun)
    (hpre : ∀ p ∈ pre, terminal (updateStatus p) = false) :
    mustUpdateStatus pre
      = (.sleep (200 * Millisecond) :: pollTrace 0 (pre.map updateStatus), false) := by
  have h := mustUpdateStatusLoop_polling pre 0 hpre
  rw [durAt_zero] at h
  simp only [mustUpdateStatus, h]

theorem getLast?_append_singleton {α : Type} (l : List α) (a : α) :
    (l ++ [a]).getLast? = some a := by
  simp

/-- The run of `mustUpdateStatus` on a script whose first terminal status comes
after the runs `pre`. -/
theorem mustUpdateStatus_run (pre : List cmdRun) (r : cmdRun) (post : List cmdRun)
    (hpre : ∀ p ∈ pre, terminal (updateStatus p) = false)
    (hr : terminal (updateStatus r) = true) :
    (mustUpdateStatus (pre ++ r :: post)).2 = true
    ∧ (mustUpdateStatus (pre ++ r :: post)).1.head? = some (.sleep (200 * Millisecond))
    ∧ queriesOf (mustUpdateStatus (pre ++ r :: post)).1 = (pre ++ [r]).map updateStatus
    ∧ waitsBetweenQueries (mustUpdateStatus (pre ++ r :: post)).1
        = (List.range pre.length).map
            (fun j => min (200 + 100 * (j + 1)) 2000 * Millisecond)
    ∧ (mustUpdateStatus (pre ++ r :: post)).1.getLast? = some (.query (updateStatus r))
    ∧ (mustUpdateStatus (pre ++ r :: post)).1
        = .sleep (200 * Millisecond)
            :: (pollTrace 0 (pre.map updateStatus) ++ [.query (updateStatus r)]) := by
  rw [mustUpdateStatus_trace pre r post hpre hr]
  refine ⟨rfl, rfl, ?_, ?_, ?_, rfl⟩
  · simp [queriesOf, queriesOf_pollTrace]
  · cases hp : pre.map updateStatus with
    | nil =>
      have : pre = [] := by simpa using hp
      subst this
      simp [waitsBetweenQueries, pollTrace, waitsFrom]
    | cons s ss =>
      have hlen : pre.length = ss.length + 1 := by
        have := congrArg List.length hp
        simpa using this
      have shift : ∀ j, 1 + 1 + j = j + 1 + 1 := by intro j; omega
      simp only [waitsBetweenQueries, pollTrace, List.cons_append, waitsFrom, Nat.zero_add,
        hlen, List.range_succ_eq_map, List.map_cons, List.map_map, List.append_eq]
      rw [waitsFrom_pollTrace]
      simp only [durAt, shift, Function.comp_def, Nat.succ_eq_add_one, Nat.zero_add]
  · have : (pollEvent.sleep (200 * Millisecond)
        :: (pollTrace 0 (pre.map updateStatus) ++ [pollEvent.query (updateStatus r)]))
        = (pollEvent.sleep (200 * Millisecond) :: pollTrace 0 (pre.map updateStatus))
            ++ [pollEvent.query (updateStatus r)] := rfl
    simp only [this]
    exact getLast?_append_singleton _ _

/-- C5, as the code behaves: for a script of `k` runs with non-terminal
statuses followed by a run with a terminal status, `mustUpdateStatus` sleeps
200 ms, then makes `k + 1` queries, sleeping after the i-th non-terminal query
(1 ≤ i ≤ k) for min(200 + 100*i, 2000) ms: the duration is increased by 100 ms
first and then waited.  The trace ends with the terminal query (no sleep
follows it) and the call returns. -/
theorem mustUpdateStatus_waits (pre : List cmdRun) (r : cmdRun) (post : List cmdRun)
    (hpre : ∀ p ∈ pre, terminal (updateStatus p) = false)
    (hr : terminal (updateStatus r) = true) :
    (mustUpdateStatus (pre ++ r :: post)).2 = true
    ∧ (mustUpdateStatus (pre ++ r :: post)).1.head? = some (.sleep (200 * Millisecond))
    ∧ queriesOf (mustUpdateStatus (pre ++ r :: post)).1 = (pre ++ [r]).map updateStatus
    ∧ waitsBetweenQueries (mustUpdateStatus (pre ++ r :: post)).1
        = (List.range pre.length).map
            (fun j => min (200 + 100 * (j + 1)) 2000 * Millisecond)
    ∧ (mustUpdateStatus (pre ++ r :: post)).1.getLast? = some (.query (updateStatus r))
    ∧ (mustUpdateStatus (pre ++ r :: post)).1
        = .sleep (200 * Millisecond)
            :: (pollTrace 0 (pre.map updateStatus) ++ [.query (updateStatus r)]) :=
  mustUpdateStatus_run pre r post hpre hr

theorem mustUpdateStatus_waits_witness :
    (∀ p ∈ [runConnecting, runConnecting], terminal (updateStatus p) = false)
    ∧ terminal (updateStatus runConnected) = true
    ∧ (mustUpdateStatus [runConnecting, runConnecting, runConnected]).2 = true
    ∧ queriesOf (mustUpdateStatus [runConnecting, runConnecting, runConnected]).1
        = [statusConnecting, statusConnecting, statusConnected]
    ∧ waitsBetweenQueries (mustUpdateStatus [runConnecting, runConnecting, runConnected]).1
        = [300 * Millisecond, 400 * Millisecond] := by
  have h := mustUpdateStatus_waits [runConnecting, runConnecting] runConnected []
    (by decide) (by decide)
  exact ⟨by decide, by decide, h.1, h.2.2.1, h.2.2.2.1⟩

/-- C5 as stated fails: for the statuses Connecting, Connecting, Connected the
waits between the three queries are 300 ms and 400 ms, not 200 ms and 300 ms. -/
theorem mustUpdateStatus_waits_counterexample :
    ([runConnecting, runConnecting, runConnected].map updateStatus
        = [statusConnecting, statusConnecting, statusConnected])
    ∧ waitsBetweenQueries (mustUpdateStatus [runConnecting, runConnecting, runConnected]).1
        = [300 * Millisecond, 400 * Millisecond]
    ∧ waitsBetweenQueries (mustUpdateStatus [runConnecting, runConnecting, runConnected]).1
        ≠ [200 * Millisecond, 300 * Millisecond]
    ∧ (waitsBetweenQueries (mustUpdateStatus [runConnecting, runConnecting, runConnected]).1).get? 0
        ≠ some (min (200 + 100 * (1 - 1)) 2000 * Millisecond) := by
  decide

/-- C6: for every script of status runs (a failed run counts as Unknown) that
contains a terminal status, `mustUpdateStatus` returns and makes exactly `n`
queries, `n` the 1-based position of the first terminal status; and whenever
`mustUpdateStatus` returns, on any script, the last thing it did was a query
whose status is terminal. -/
theorem mustUpdateStatus_returns_at_first_terminal (script : List cmdRun)
    (h : ∃ r ∈ script, terminal (updateStatus r) = true) :
    (mustUpdateStatus script).2 = true
    ∧ (queriesOf (mustUpdateStatus script).1).length
        = script.findIdx (fun r => terminal (updateStatus r)) + 1
    ∧ queriesOf (mustUpdateStatus script).1
        = (script.take (script.findIdx (fun r => terminal (updateStatus r)) + 1)).map updateStatus
    ∧ (∀ other : List cmdRun, (mustUpdateStatus other).2 = true →
        ∃ s, (mustUpdateStatus other).1.getLast? = some (.query s) ∧ terminal s = true)
    ∧ (∀ out : Bytes, terminal (updateStatus ⟨out, true⟩) = true)
    ∧ (∀ r : cmdRun, terminal (updateStatus r) = false ↔
        (updateStatus r = statusConnecting ∨ updateStatus r = statusDisconnecting
          ∨ updateStatus r = statusNoNetwork)) := by
  obtain ⟨pre, r, post, heq, hpre, hr, hidx⟩ := split_first_terminal script h
  have hw := mustUpdateStatus_run pre r post hpre hr
  rw [hidx, heq]
  refine ⟨hw.1, ?_, ?_, ?_, ?_, terminal_false_iff⟩
  · rw [hw.2.2.1]; simp
  · rw [hw.2.2.1]
    have : (pre ++ r :: post).take (pre.length + 1) = pre ++ [r] := by
      rw [List.take_append_eq_append_take]
      simp
    rw [this]
  · intro other hret
    by_cases ho : ∃ q ∈ other, terminal (updateStatus q) = true
    · obtain ⟨pre2, r2, post2, heq2, hpre2, hr2, _⟩ := split_first_terminal other ho
      have hw2 := mustUpdateStatus_run pre2 r2 post2 hpre2 hr2
      rw [heq2]
      exact ⟨updateStatus r2, hw2.2.2.2.2.1, hr2⟩
    · have hall : ∀ q ∈ other, terminal (updateStatus q) = false := by
        intro q hq
        cases ht : terminal (updateStatus q) with
        | false => rfl
        | true => exact absurd ⟨q, hq, ht⟩ ho
      rw [mustUpdateStatus_polling other hall] at hret
      simp at hret
  · intro out
    rfl

theorem mustUpdateStatus_returns_at_first_terminal_witness :
    (∃ r ∈ [runConnecting, ⟨ascii "daemon not running", true⟩, runConnected],
        terminal (updateStatus r) = true)
    ∧ (mustUpdateStatus [runConnecting, ⟨ascii "daemon not running", true⟩, runConnected]).2 = true
    ∧ (queriesOf
        (mustUpdateStatus [runConnecting, ⟨ascii "daemon not running", true⟩, runConnected]).1).length
        = 2 := by
  have h := mustUpdateStatus_returns_at_first_terminal
    [runConnecting, ⟨ascii "daemon not running", true⟩, runConnected]
    ⟨runConnected, by decide, by decide⟩
  exact ⟨⟨runConnected, by decide, by decide⟩, h.1, h.2.1⟩


theorem sleepsOf_mustUpdateStatus (script : List cmdRun) :
    sleepsOf (mustUpdateStatus script).1
      = (List.range
          ((script.takeWhile (fun r => !terminal (updateStatus r))).length + 1)).map durAt := by
  have closed : ∀ (ss : List status) (tl : List pollEvent), sleepsOf tl = [] →
      sleepsOf (pollEvent.sleep (200 * Millisecond) :: (pollTrace 0 ss ++ tl))
        = (List.range (ss.length + 1)).map durAt := by
    intro ss tl htl
    have shift : ∀ j, 0 + 1 + j = j + 1 := by intro j; omega
    simp only [sleepsOf, sleepsOf_pollTrace, htl, List.append_nil, List.range_succ_eq_map,
      List.map_cons, List.map_map, durAt_zero, shift, Function.comp_def, Nat.succ_eq_add_one]
  by_cases h : ∃ r ∈ script, terminal (updateStatus r) = true
  · obtain ⟨pre, r, post, heq, hpre, hr, _⟩ := split_first_terminal script h
    have htw : (script.takeWhile (fun r => !terminal (updateStatus r))) = pre := by
      rw [heq, List.takeWhile_append_of_pos (by simpa using hpre)]
      simp [List.takeWhile_cons, hr]
    rw [htw, heq, mustUpdateStatus_trace pre r post hpre hr]
    simpa using closed (pre.map updateStatus) [.query (updateStatus r)] rfl
  · have hall : ∀ q ∈ script, terminal (updateStatus q) = false := by
      intro q hq
      cases ht : terminal (updateStatus q) with
      | false => rfl
      | true => exact absurd ⟨q, hq, ht⟩ h
    have htw : (script.takeWhile (fun r => !terminal (updateStatus r))) = script := by
      rw [List.takeWhile_eq_self_iff]
      intro q hq
      simp [hall q hq]
    rw [htw, mustUpdateStatus_polling script hall]
    simpa using closed (script.map updateStatus) [] rfl

theorem getD_range_map_durAt (n i : Nat) (h : i < n) :
    ((List.range n).map durAt).getD i 0 = durAt i := by
  rw [List.getD_eq_getElem?_getD, List.getElem?_map, List.getElem?_range h]
  rfl

/-- C10: the sleeps of `mustUpdateStatus` are bounded for every number of
rounds.  On every script the i-th sleep (from 0) lasts min(200 + 100*i, 2000)
ms, and there is one sleep more than there are non-terminal queries; so every
sleep lasts between 200 ms and 2000 ms, the durations never decrease, a sleep
shorter than 2000 ms is followed by one exactly 100 ms longer, and once a sleep
lasts 2000 ms every later one lasts exactly 2000 ms. -/
theorem mustUpdateStatus_sleeps_bounded (script : List cmdRun) :
    (sleepsOf (mustUpdateStatus script).1).length
        = (script.takeWhile (fun r => !terminal (updateStatus r))).length + 1
    ∧ (∀ i, i < (sleepsOf (mustUpdateStatus script).1).length →
        (sleepsOf (mustUpdateStatus script).1).getD i 0
          = min (200 + 100 * i) 2000 * Millisecond)
    ∧ (∀ d ∈ sleepsOf (mustUpdateStatus script).1,
        200 * Millisecond ≤ d ∧ d ≤ 2000 * Millisecond)
    ∧ (∀ i, i + 1 < (sleepsOf (mustUpdateStatus script).1).length →
        (sleepsOf (mustUpdateStatus script).1).getD i 0
          ≤ (sleepsOf (mustUpdateStatus script).1).getD (i + 1) 0)
    ∧ (∀ i, i + 1 < (sleepsOf (mustUpdateStatus script).1).length →
        (sleepsOf (mustUpdateStatus script).1).getD i 0 < 2000 * Millisecond →
        (sleepsOf (mustUpdateStatus script).1).getD (i + 1) 0
          = (sleepsOf (mustUpdateStatus script).1).getD i 0 + 100 * Millisecond)
    ∧ (∀ i j, i ≤ j → j < (sleepsOf (mustUpdateStatus script).1).length →
        (sleepsOf (mustUpdateStatus script).1).getD i 0 = 2000 * Millisecond →
        (sleepsOf (mustUpdateStatus script).1).getD j 0 = 2000 * Millisecond) := by
  rw [sleepsOf_mustUpdateStatus]
  generalize (script.takeWhile (fun r => !terminal (updateStatus r))).length + 1 = n
  simp only [List.length_map, List.length_range]
  refine ⟨trivial, ?_, ?_, ?_, ?_, ?_⟩
  · intro i hi
    rw [getD_range_map_durAt n i hi]
    rfl
  · intro d hd
    obtain ⟨i, _, rfl⟩ := List.mem_map.mp hd
    exact durAt_bounds i
  · intro i hi
    rw [getD_range_map_durAt n i (by omega), getD_range_map_durAt n (i + 1) hi]
    exact durAt_mono (by omega)
  · intro i hi hlt
    rw [getD_range_map_durAt n i (by omega)] at hlt ⊢
    rw [getD_range_map_durAt n (i + 1) hi]
    exact durAt_succ_of_lt i hlt
  · intro i j hij hj hcap
    rw [getD_range_map_durAt n i (by omega)] at hcap
    rw [getD_range_map_durAt n j hj]
    exact durAt_cap hij hcap

theorem mustUpdateStatus_sleeps_bounded_witness :
    (sleepsOf (mustUpdateStatus (List.replicate 20 runConnecting)).1).length = 21
    ∧ (sleepsOf (mustUpdateStatus (List.replicate 20 runConnecting)).1).getD 17 0
        = 1900 * Millisecond
    ∧ (sleepsOf (mustUpdateStatus (List.replicate 20 runConnecting)).1).getD 18 0
        = 1900 * Millisecond + 100 * Millisecond
    ∧ (sleepsOf (mustUpdateStatus (List.replicate 20 runConnecting)).1).getD 20 0
        = 2000 * Millisecond := by
  have h := mustUpdateStatus_sleeps_bounded (List.replicate 20 runConnecting)
  have h17 : (sleepsOf (mustUpdateStatus (List.replicate 20 runConnecting)).1).getD 17 0
      = 1900 * Millisecond := by decide
  have hlen : (sleepsOf (mustUpdateStatus (List.replicate 20 runConnecting)).1).length = 21 := by
    decide
  have h18 := h.2.2.2.2.1 17 (by rw [hlen]; decide) (by rw [h17]; decide)
  rw [h17] at h18
  exact ⟨hlen, h17, h18,
    h.2.2.2.2.2 18 20 (by decide) (by rw [hlen]; decide) (by rw [h18]; decide)⟩

/-! ## Decoding runes -/

theorem first_lead {c sz lo hi : Nat} (h : first c = .lead sz lo hi) :
    (sz = 2 ∨ sz = 3 ∨ sz = 4) ∧ 0x80 ≤ lo ∧ hi ≤ 0xBF ∧ 0xC2 ≤ c := by
  unfold first at h
  by_cases h1 : c < 0x80
  · rw [if_pos h1] at h; exact absurd h (by simp)
  rw [if_neg h1] at h
  by_cases h2 : c < 0xC2
  · rw [if_pos h2] at h; exact absurd h (by simp)
  rw [if_neg h2] at h
  have fin : ∀ {a b d : Nat}, firstByte.lead a b d = firstByte.lead sz lo hi →
      (a = 2 ∨ a = 3 ∨ a = 4) → 0x80 ≤ b → d ≤ 0xBF →
      (sz = 2 ∨ sz = 3 ∨ sz = 4) ∧ 0x80 ≤ lo ∧ hi ≤ 0xBF ∧ 0xC2 ≤ c := by
    intro a b d he ha hb hd
    simp only [firstByte.lead.injEq] at he
    obtain ⟨rfl, rfl, rfl⟩ := he
    exact ⟨ha, hb, hd, by omega⟩
  by_cases h3 : c ≤ 0xDF
  · rw [if_pos h3] at h; exact fin h (by simp) (by simp) (by simp)
  rw [if_neg h3] at h
  by_cases h4 : c = 0xE0
  · rw [if_pos h4] at h; exact fin h (by simp) (by simp) (by simp)
  rw [if_neg h4] at h
  by_cases h5 : c ≤ 0xEC
  · rw [if_pos h5] at h; exact fin h (by simp) (by simp) (by simp)
  rw [if_neg h5] at h
  by_cases h6 : c = 0xED
  · rw [if_pos h6] at h; exact fin h (by simp) (by simp) (by simp)
  rw [if_neg h6] at h
  by_cases h7 : c ≤ 0xEF
  · rw [if_pos h7] at h; exact fin h (by simp) (by simp) (by simp)
  rw [if_neg h7] at h
  by_cases h8 : c = 0xF0
  · rw [if_pos h8] at h; exact fin h (by simp) (by simp) (by simp)
  rw [if_neg h8] at h
  by_cases h9 : c ≤ 0xF3
  · rw [if_pos h9] at h; exact fin h (by simp) (by simp) (by simp)
  rw [if_neg h9] at h
  by_cases h10 : c = 0xF4
  · rw [if_pos h10] at h; exact fin h (by simp) (by simp) (by simp)
  rw [if_neg h10] at h
  exact absurd h (by simp)

theorem first_xx (c : Nat) (hc : ¬ (c < 0x80 ∨ 0xBF < c)) : first c = .xx := by
  unfold first
  rw [if_neg (by omega), if_pos (by omega)]

theorem decode_ascii (c : Nat) (t : Bytes) (h : c < 0x80) : utf8DecodeRune (c :: t) = (c, 1) := by
  simp [utf8DecodeRune, first, h]

theorem stepRune_eq (c : Nat) (t : Bytes) :
    (if c ≥ RuneSelf then utf8DecodeRune (c :: t) else (c, 1)) = utf8DecodeRune (c :: t) := by
  split_ifs with h
  · rfl
  · rw [decode_ascii c t (by unfold RuneSelf at h; omega)]

theorem decode_size (c : Nat) (t : Bytes) :
    1 ≤ (utf8DecodeRune (c :: t)).2 ∧ (utf8DecodeRune (c :: t)).2 ≤ (c :: t).length := by
  cases hf : first c with
  | as => simp [utf8DecodeRune, hf]
  | xx => simp [utf8DecodeRune, hf]
  | lead sz lo hi =>
    rcases t with _ | ⟨b1, _ | ⟨b2, _ | ⟨b3, t⟩⟩⟩ <;>
      simp only [utf8DecodeRune, hf, List.length_cons, List.length_nil] <;>
      split_ifs <;> simp

theorem decode_append (c : Nat) (p t : Bytes) (ht : Boundary t) :
    utf8DecodeRune (c :: p ++ t) = utf8DecodeRune (c :: p) := by
  cases hf : first c with
  | as => simp [utf8DecodeRune, hf]
  | xx => simp [utf8DecodeRune, hf]
  | lead sz lo hi =>
    obtain ⟨hsz, hlo, hhi, _⟩ := first_lead hf
    rcases t with _ | ⟨d, t⟩
    · simp
    · have hd := ht d t rfl
      have hd1 : d < lo ∨ hi < d := by omega
      rcases p with _ | ⟨b1, _ | ⟨b2, _ | ⟨b3, p⟩⟩⟩
      · simp only [utf8DecodeRune, hf, List.length_cons, List.length_nil, List.cons_append,
          List.nil_append, hd1, if_true, ite_self]
      · rcases hsz with rfl | rfl | rfl
        · have h1 : ¬ (t.length + 1 + 1 + 1 < 2) := by omega
          simp only [utf8DecodeRune, hf, List.length_cons, List.length_nil, List.cons_append,
            List.nil_append, h1, if_false, Nat.lt_irrefl, Nat.le_refl, if_true]
        · simp only [utf8DecodeRune, hf, List.length_cons, List.length_nil, List.cons_append,
            List.nil_append, hd, if_true, ite_self]
          split_ifs <;> first | rfl | omega
        · simp only [utf8DecodeRune, hf, List.length_cons, List.length_nil, List.cons_append,
            List.nil_append, hd, if_true, ite_self]
          split_ifs <;> first | rfl | omega
      · rcases hsz with rfl | rfl | rfl
        · have h1 : ¬ (t.length + 1 + 1 + 1 + 1 < 2) := by omega
          simp only [utf8DecodeRune, hf, List.length_cons, List.length_nil, List.cons_append,
            List.nil_append, h1, if_false, Nat.le_refl, if_true]
          split_ifs <;> first | rfl | omega
        · have h1 : ¬ (t.length + 1 + 1 + 1 + 1 < 3) := by omega
          simp only [utf8DecodeRune, hf, List.length_cons, List.length_nil, List.cons_append,
            List.nil_append, h1, if_false, Nat.le_refl, if_true]
          split_ifs <;> first | rfl | omega
        · simp only [utf8DecodeRune, hf, List.length_cons, List.length_nil, List.cons_append,
            List.nil_append, hd, if_true, ite_self]
          split_ifs <;> first | rfl | omega
      · have h1 : ¬ ((p ++ d :: t).length + 1 + 1 + 1 + 1 < sz) := by omega
        have h2 : ¬ (p.length + 1 + 1 + 1 + 1 < sz) := by omega
        simp only [utf8DecodeRune, hf, List.length_cons, List.cons_append, h1, h2, if_false]

theorem decode_space_boundary (c : Nat) (t : Bytes)
    (h : unicodeIsSpace (utf8DecodeRune (c :: t)).1 = true) : c < 0x80 ∨ 0xBF < c := by
  by_contra hc
  have hx : first c = .xx := first_xx c hc
  have : utf8DecodeRune (c :: t) = (RuneError, 1) := by simp [utf8DecodeRune, hx]
  rw [this] at h
  revert h
  decide

/-! ## `indexFunc` -/

theorem indexFuncFuel_nil (f : Nat → Bool) (truth : Bool) (n : Nat) :
    indexFuncFuel f truth n [] = none := by
  cases n <;> rfl

theorem indexFuncFuel_enough (f : Nat → Bool) (truth : Bool) :
    ∀ (n m : Nat) (s : Bytes), s.length ≤ n → s.length ≤ m →
      indexFuncFuel f truth n s = indexFuncFuel f truth m s := by
  intro n
  induction n with
  | zero =>
    intro m s hn _
    have : s = [] := List.length_eq_zero.mp (Nat.le_zero.mp hn)
    subst this
    rw [indexFuncFuel_nil, indexFuncFuel_nil]
  | succ n ih =>
    intro m s hn hm
    rcases s with _ | ⟨c, t⟩
    · rw [indexFuncFuel_nil, indexFuncFuel_nil]
    · rcases m with _ | m
      · simp at hm
      · simp only [indexFuncFuel, stepRune_eq]
        split_ifs
        · rfl
        · have hsz := decode_size c t
          have hlen : ((c :: t).drop (utf8DecodeRune (c :: t)).2).length ≤ t.length := by
            rw [List.length_drop, List.length_cons]
            omega
          simp only [List.length_cons] at hn hm
          rw [ih m _ (by omega) (by omega)]

theorem indexFunc_nil (f : Nat → Bool) (truth : Bool) : indexFunc [] f truth = none := rfl

theorem indexFunc_cons (f : Nat → Bool) (truth : Bool) (c : Nat) (t : Bytes) :
    indexFunc (c :: t) f truth =
      if f (utf8DecodeRune (c :: t)).1 = truth then some 0
      else (indexFunc ((c :: t).drop (utf8DecodeRune (c :: t)).2) f truth).map
        (· + (utf8DecodeRune (c :: t)).2) := by
  simp only [indexFunc, List.length_cons, indexFuncFuel, stepRune_eq]
  split_ifs
  · rfl
  · have hsz := decode_size c t
    rw [indexFuncFuel_enough f truth t.length _ _ _ le_rfl]
    rw [List.length_drop, List.length_cons]
    omega

theorem indexFunc_lt (f : Nat → Bool) (truth : Bool) :
    ∀ (n : Nat) (p : Bytes) (i : Nat), p.length ≤ n → indexFunc p f truth = some i →
      i < p.length := by
  intro n
  induction n with
  | zero =>
    intro p i hn h
    have : p = [] := List.length_eq_zero.mp (Nat.le_zero.mp hn)
    subst this
    simp [indexFunc_nil] at h
  | succ n ih =>
    intro p i hn h
    rcases p with _ | ⟨c, t⟩
    · simp [indexFunc_nil] at h
    · rw [indexFunc_cons] at h
      have hsz := decode_size c t
      split_ifs at h
      · simp only [Option.some.injEq] at h
        subst h
        simp
      · cases hj : indexFunc ((c :: t).drop (utf8DecodeRune (c :: t)).2) f truth with
        | none => simp [hj] at h
        | some j =>
          simp only [hj, Option.map_some', Option.some.injEq] at h
          have hlt := ih _ j (by
            rw [List.length_drop]
            simp only [List.length_cons] at hn ⊢
            omega) hj
          rw [List.length_drop] at hlt
          omega

theorem indexFunc_append (f : Nat → Bool) (truth : Bool) (t : Bytes) (ht : Boundary t) :
    ∀ (n : Nat) (p : Bytes), p.length ≤ n →
      indexFunc (p ++ t) f truth =
        match indexFunc p f truth with
        | some i => some i
        | none => (indexFunc t f truth).map (· + p.length) := by
  intro n
  induction n with
  | zero =>
    intro p hn
    have : p = [] := List.length_eq_zero.mp (Nat.le_zero.mp hn)
    subst this
    simp [indexFunc_nil]
  | succ n ih =>
    intro p hn
    rcases p with _ | ⟨c, p⟩
    · simp [indexFunc_nil]
    · have hsz := decode_size c p
      rw [List.cons_append, indexFunc_cons, indexFunc_cons f truth c p, ← List.cons_append,
        decode_append c p t ht]
      split_ifs
      · rfl
      · rw [List.drop_append_of_le_length hsz.2, ih _ (by
          rw [List.length_drop]
          simp only [List.length_cons] at hn ⊢
          omega)]
        cases hj : indexFunc ((c :: p).drop (utf8DecodeRune (c :: p)).2) f truth with
        | some j => rfl
        | none =>
          simp only [Option.map_none', Option.map_map]
          congr 1
          funext x
          simp only [Function.comp, List.length_drop]
          omega

theorem decode_append_ne (p t : Bytes) (hp : p ≠ []) (ht : Boundary t) :
    utf8DecodeRune (p ++ t) = utf8DecodeRune p := by
  rcases p with _ | ⟨c, p⟩
  · exact absurd rfl hp
  · exact decode_append c p t ht

theorem decode_size_ne (p : Bytes) (hp : p ≠ []) :
    1 ≤ (utf8DecodeRune p).2 ∧ (utf8DecodeRune p).2 ≤ p.length := by
  rcases p with _ | ⟨c, p⟩
  · exact absurd rfl hp
  · exact decode_size c p

theorem spaceHead_boundary (t : Bytes) (h : SpaceHead t) : Boundary t := by
  intro d t' ht
  subst ht
  rcases h with h | h
  · simp at h
  · exact decode_space_boundary d t' h

theorem boundary_ascii (d : Nat) (t : Bytes) (h : d < 0x80) : Boundary (d :: t) := by
  intro d' t' he
  simp only [List.cons.injEq] at he
  omega

theorem boundary_nil : Boundary [] := by
  intro d t h
  simp at h

theorem spaceHead_append (t u : Bytes) (ht : SpaceHead t) (hu : SpaceHead u) :
    SpaceHead (t ++ u) := by
  rcases ht with rfl | ht
  · simpa using hu
  · by_cases hne : t = []
    · subst hne; simpa using hu
    · right
      rw [decode_append_ne t u hne (spaceHead_boundary u hu)]
      exact ht

theorem asciiSpace_isSpace (c : Nat) (h : asciiSpace c = true) :
    c < 0x80 ∧ unicodeIsSpace c = true := by
  simp only [asciiSpace, Bool.decide_or, Bool.or_eq_true, decide_eq_true_eq] at h
  rcases h with rfl | rfl | rfl | rfl | rfl | rfl <;> decide

theorem not_asciiSpace_isSpace (c : Nat) (h : asciiSpace c = false) (hc : c < 0x80) :
    unicodeIsSpace c = false := by
  simp only [asciiSpace, Bool.decide_or, Bool.or_eq_false_iff, decide_eq_false_iff_not] at h
  have hle : c ≤ 0xFF := by omega
  simp only [unicodeIsSpace, hle, if_true, Bool.decide_or, Bool.or_eq_false_iff,
    decide_eq_false_iff_not]
  omega

theorem spaceHead_ascii (d : Nat) (t : Bytes) (h : asciiSpace d = true) : SpaceHead (d :: t) := by
  right
  rw [decode_ascii d t (asciiSpace_isSpace d h).1]
  exact (asciiSpace_isSpace d h).2

/-! ## Cutting at the first white space -/

theorem cutAtSpace_append (p t : Bytes) (ht : SpaceHead t) : cutAtSpace (p ++ t) = cutAtSpace p := by
  rcases ht with rfl | hsp
  · simp
  · unfold cutAtSpace
    have hb : Boundary t := spaceHead_boundary t (Or.inr hsp)
    rw [indexFunc_append unicodeIsSpace true t hb p.length p le_rfl]
    cases hi : indexFunc p unicodeIsSpace true with
    | some i =>
      have hlt := indexFunc_lt unicodeIsSpace true p.length p i le_rfl hi
      simp only
      rw [List.take_append_of_le_length (by omega)]
    | none =>
      rcases t with _ | ⟨d, t⟩
      · exact absurd hsp (by decide)
      · rw [indexFunc_cons, if_pos hsp]
        simp

theorem rangeSpaceFuel_eq (n : Nat) (s : Bytes) :
    rangeSpaceFuel n s = indexFuncFuel unicodeIsSpace true n s := by
  induction n generalizing s with
  | zero => rfl
  | succ n ih =>
    rcases s with _ | ⟨c, t⟩
    · rfl
    · simp only [rangeSpaceFuel, indexFuncFuel, stepRune_eq, ih]

theorem modeToken_eq (b : Bytes) (i : Nat) :
    modeToken b i = cutAtSpace (bytesTrimSpace (b.drop (i + sep.length))) := by
  simp only [modeToken, cutAtSpace, indexFunc, rangeSpaceFuel_eq]

/-! ## Trimming white space -/

theorem scanStart_le (p : Bytes) (lim : Int) : ∀ (n : Nat) (s : Int), scanStart p lim n s ≤ s := by
  intro n
  induction n with
  | zero => intro s; exact le_refl s
  | succ n ih =>
    intro s
    unfold scanStart
    split_ifs
    · exact le_refl s
    · exact le_trans (ih (s - 1)) (by omega)
    · exact le_refl s

theorem drop_length_sub_one (q : Bytes) (hq : q ≠ []) :
    q.drop (q.length - 1) = [q.getD (q.length - 1) 0] := by
  rcases List.eq_nil_or_concat q with h | ⟨l, a, rfl⟩
  · exact absurd h hq
  · simp

/-- The rune `lastIndexFunc` reads at the end of `q`: its width is the width of
the rune that `DecodeRune` reads at the place it starts, and when it is white
space it is that rune. -/
theorem lastRune_spec (q : Bytes) (hq : q ≠ []) :
    1 ≤ (lastRune q).2 ∧ (lastRune q).2 ≤ q.length
    ∧ (utf8DecodeRune (q.drop (q.length - (lastRune q).2))).2 = (lastRune q).2
    ∧ (unicodeIsSpace (lastRune q).1 = true →
        (utf8DecodeRune (q.drop (q.length - (lastRune q).2))).1 = (lastRune q).1) := by
  have hlen : 1 ≤ q.length := by
    rcases q with _ | ⟨c, q⟩
    · exact absurd rfl hq
    · simp
  have hone : (utf8DecodeRune (q.drop (q.length - 1))).2 = 1 := by
    rw [drop_length_sub_one q hq]
    have := decode_size (q.getD (q.length - 1) 0) []
    simp only [List.length_singleton] at this
    omega
  generalize hrw : lastRune q = rw
  unfold lastRune at hrw
  simp only at hrw
  by_cases hc : q.getD (q.length - 1) 0 ≥ RuneSelf
  · rw [if_pos hc] at hrw
    have hnlt : ¬ q.getD (q.length - 1) 0 < RuneSelf := by omega
    have hne0 : ¬ q.length = 0 := by omega
    simp only [utf8DecodeLastRune, hne0, if_false, hnlt] at hrw
    generalize hs0 : scanStart q
      (if (0 : Int) ≤ (q.length : Int) - UTFMax then (q.length : Int) - UTFMax else 0) UTFMax
      ((q.length : Int) - 2) = start0 at hrw
    have hs0le : start0 ≤ (q.length : Int) - 2 := by
      rw [← hs0]
      exact scanStart_le _ _ _ _
    generalize hst : (if start0 < 0 then 0 else start0).toNat = start at hrw
    have hstlt : start < q.length := by
      rw [← hst]
      split_ifs <;> omega
    split_ifs at hrw with hmis
    · subst hrw
      exact ⟨le_refl 1, hlen, hone, fun h => absurd h (by decide)⟩
    · have hsz := decode_size_ne (q.drop start) (by
        intro h
        have := congrArg List.length h
        rw [List.length_drop] at this
        simp only [List.length_nil] at this
        omega)
      have heq : q.length - rw.2 = start := by rw [← hrw]; omega
      rw [heq]
      subst hrw
      refine ⟨hsz.1, by omega, rfl, fun _ => rfl⟩
  · rw [if_neg hc] at hrw
    subst hrw
    refine ⟨le_refl 1, hlen, hone, ?_⟩
    intro _
    simp only
    rw [drop_length_sub_one q hq, decode_ascii _ _ (by unfold RuneSelf at hc; omega)]

theorem lastIndexFuncFuel_spec :
    ∀ (n : Nat) (q t : Bytes), q.length ≤ n → SpaceHead t →
      match lastIndexFuncFuel unicodeIsSpace false n q with
      | none => SpaceHead (q ++ t)
      | some i => i < q.length
          ∧ SpaceHead ((q ++ t).drop (i + (utf8DecodeRune ((q ++ t).drop i)).2))
          ∧ i + (utf8DecodeRune ((q ++ t).drop i)).2 ≤ q.length := by
  intro n
  induction n with
  | zero =>
    intro q t hn ht
    have : q = [] := List.length_eq_zero.mp (Nat.le_zero.mp hn)
    subst this
    simpa [lastIndexFuncFuel] using ht
  | succ n ih =>
    intro q t hn ht
    by_cases hq : q = []
    · subst hq
      simpa [lastIndexFuncFuel] using ht
    · obtain ⟨h1, h2, h3, h4⟩ := lastRune_spec q hq
      have hb : Boundary t := spaceHead_boundary t ht
      simp only [lastIndexFuncFuel, hq, if_false]
      generalize lastRune q = rw at h1 h2 h3 h4 ⊢
      have hdne : q.drop (q.length - rw.2) ≠ [] := by
        intro h
        have := congrArg List.length h
        rw [List.length_drop] at this
        simp only [List.length_nil] at this
        omega
      have hdec : utf8DecodeRune ((q ++ t).drop (q.length - rw.2))
          = utf8DecodeRune (q.drop (q.length - rw.2)) := by
        rw [List.drop_append_of_le_length (by omega), decode_append_ne _ t hdne hb]
      split_ifs with hf
      · simp only
        rw [hdec, h3]
        have : q.length - rw.2 + rw.2 = q.length := by omega
        rw [this]
        refine ⟨by omega, ?_, le_refl _⟩
        rw [List.drop_left]
        exact ht
      · have hsp : unicodeIsSpace rw.1 = true := by simpa using hf
        have ht2 : SpaceHead (q.drop (q.length - rw.2) ++ t) := by
          right
          rw [decode_append_ne _ t hdne hb, h4 hsp]
          exact hsp
        have hrec := ih (q.take (q.length - rw.2)) _ (by rw [List.length_take]; omega) ht2
        rw [← List.append_assoc, List.take_append_drop] at hrec
        cases hres : lastIndexFuncFuel unicodeIsSpace false n (q.take (q.length - rw.2)) with
        | none =>
          rw [hres] at hrec
          exact hrec
        | some i =>
          rw [hres] at hrec
          simp only at hrec ⊢
          obtain ⟨hi, hd, hle⟩ := hrec
          rw [List.length_take] at hi hle
          exact ⟨by omega, hd, by omega⟩


theorem bytesTrimRightFunc_spec (s : Bytes) :
    ∃ t, s = bytesTrimRightFunc s unicodeIsSpace ++ t ∧ SpaceHead t := by
  have h := lastIndexFuncFuel_spec s.length s [] le_rfl (Or.inl rfl)
  unfold bytesTrimRightFunc lastIndexFunc
  cases hres : lastIndexFuncFuel unicodeIsSpace false s.length s with
  | none =>
    rw [hres] at h
    simp only [List.append_nil] at h
    exact ⟨s, by simp, h⟩
  | some i =>
    rw [hres] at h
    simp only [List.append_nil] at h
    obtain ⟨hi, hsp, _⟩ := h
    have hwid : (if s.getD i 0 ≥ RuneSelf then s.take (i + (utf8DecodeRune (s.drop i)).2)
        else s.take (i + 1)) = s.take (i + (utf8DecodeRune (s.drop i)).2) := by
      split_ifs with hc
      · rfl
      · have hd : s.drop i = s.getD i 0 :: s.drop (i + 1) := by
          rw [List.getD_eq_getElem _ _ hi]
          exact List.drop_eq_getElem_cons hi
        rw [hd, decode_ascii _ _ (by unfold RuneSelf at hc; omega)]
    simp only [hwid]
    exact ⟨s.drop (i + (utf8DecodeRune (s.drop i)).2), (List.take_append_drop _ _).symm, hsp⟩

theorem trimLeft_noSpaceHead (l : Bytes) (h : NoSpaceHead l) :
    bytesTrimLeftFunc l unicodeIsSpace = l := by
  rcases l with _ | ⟨c, l⟩
  · rfl
  · obtain ⟨hc, hns⟩ := h c l rfl
    unfold bytesTrimLeftFunc
    rw [indexFunc_cons, decode_ascii c l hc, if_pos hns]
    rfl

theorem trimLeft_space_cons (c : Nat) (l : Bytes) (hc : c < 0x80)
    (hsp : unicodeIsSpace c = true) :
    bytesTrimLeftFunc (c :: l) unicodeIsSpace = bytesTrimLeftFunc l unicodeIsSpace := by
  unfold bytesTrimLeftFunc
  rw [indexFunc_cons, decode_ascii c l hc, if_neg (by simp [hsp])]
  cases hi : indexFunc l unicodeIsSpace false with
  | none => simp [hi]
  | some i => simp [hi]

theorem trimSpaceStop_spec (l : Bytes) (h : NoSpaceHead l) :
    ∃ t, l = trimSpaceStop l.reverse ++ t ∧ SpaceHead t := by
  induction l using List.reverseRecOn with
  | nil => exact ⟨[], rfl, Or.inl rfl⟩
  | append_singleton l d ih =>
    have hl : NoSpaceHead l := by
      intro c l' he
      subst he
      exact h c (l' ++ [d]) rfl
    rw [List.reverse_append, List.reverse_singleton, List.singleton_append]
    unfold trimSpaceStop
    split_ifs with hc hsp
    · rw [List.reverse_cons, List.reverse_reverse]
      unfold bytesTrimFunc
      rw [trimLeft_noSpaceHead _ h]
      exact bytesTrimRightFunc_spec _
    · obtain ⟨t, ht, hst⟩ := ih hl
      refine ⟨t ++ [d], ?_, spaceHead_append t [d] hst (spaceHead_ascii d [] hsp)⟩
      rw [← List.append_assoc, ← ht]
    · exact ⟨[], by simp, Or.inl rfl⟩

theorem bytesTrimSpace_spec (y : Bytes) :
    ∃ t, bytesTrimLeftFunc y unicodeIsSpace = bytesTrimSpace y ++ t ∧ SpaceHead t := by
  induction y with
  | nil => exact ⟨[], rfl, Or.inl rfl⟩
  | cons c y ih =>
    unfold bytesTrimSpace
    split_ifs with hc hsp
    · exact bytesTrimRightFunc_spec _
    · rw [trimLeft_space_cons c y (asciiSpace_isSpace c hsp).1 (asciiSpace_isSpace c hsp).2]
      exact ih
    · have hns : NoSpaceHead (c :: y) := by
        intro c' l' he
        simp only [List.cons.injEq] at he
        obtain ⟨rfl, _⟩ := he
        have hlt : c < 0x80 := by unfold RuneSelf at hc; omega
        exact ⟨hlt, not_asciiSpace_isSpace c (by simpa using hsp) hlt⟩
      rw [trimLeft_noSpaceHead _ hns]
      exact trimSpaceStop_spec _ hns

/-- `TrimSpace` followed by the cut at the first white space gives the token of
the specification. -/
theorem cutAtSpace_trimSpace (y : Bytes) : cutAtSpace (bytesTrimSpace y) = firstField y := by
  obtain ⟨t, ht, hst⟩ := bytesTrimSpace_spec y
  unfold firstField
  rw [ht, cutAtSpace_append _ t hst]

theorem firstField_newline (x : Bytes) : firstField (x ++ [10]) = firstField x := by
  unfold firstField bytesTrimLeftFunc
  rw [indexFunc_append unicodeIsSpace false [10] (boundary_ascii 10 [] (by decide)) x.length x
    le_rfl]
  cases hi : indexFunc x unicodeIsSpace false with
  | some i =>
    have hlt := indexFunc_lt unicodeIsSpace false x.length x i le_rfl hi
    simp only
    rw [List.drop_append_of_le_length (by omega)]
    exact cutAtSpace_append _ [10] (spaceHead_ascii 10 [] (by decide))
  | none =>
    have : indexFunc [10] unicodeIsSpace false = none := by decide
    simp [this]

/-! ## Reading the settings line by line -/

theorem readBytes_line (l rest : Bytes) (h : 10 ∉ l) :
    readBytes 10 (l ++ 10 :: rest) = (l ++ [10], rest, false) := by
  induction l with
  | nil => simp [readBytes]
  | cons c l ih =>
    have hc : c ≠ 10 := fun e => h (e ▸ List.mem_cons_self _ _)
    have hl : 10 ∉ l := fun e => h (List.mem_cons_of_mem _ e)
    simp [readBytes, hc, ih hl]

theorem readBytes_append (d : Nat) (s : Bytes) :
    (readBytes d s).1 ++ (readBytes d s).2.1 = s := by
  induction s with
  | nil => rfl
  | cons c s ih =>
    unfold readBytes
    split_ifs
    · rfl
    · simp [ih]

theorem readBytes_rest_lt (d : Nat) (s : Bytes) (h : (readBytes d s).2.2 = false) :
    (readBytes d s).2.1.length < s.length := by
  induction s with
  | nil => simp [readBytes] at h
  | cons c s ih =>
    unfold readBytes at h ⊢
    split_ifs at h ⊢ with hc
    · simp
    · simp only at h ⊢
      have := ih h
      simp only [List.length_cons]
      omega

theorem bytesIndex_none (s sub : Bytes) (h : ¬ sub <:+: s) : bytesIndex s sub = none := by
  have := (bytesIndex_isSome_iff s sub).not.mpr h
  simpa using this

theorem sep_eq : sep = [77, 111, 100, 101, 58] := by decide

theorem bytesIndex_sep (a y : Bytes) (ha : ¬ sep <:+: a) :
    bytesIndex (a ++ sep ++ y) sep = some a.length := by
  induction a with
  | nil =>
    unfold bytesIndex
    rw [if_pos]
    · rfl
    · rw [List.isPrefixOf_iff_prefix]
      simp
  | cons c a ih =>
    have ha2 : ¬ sep <:+: a := fun h => ha (List.infix_cons h)
    have hnp : ¬ sep.isPrefixOf (c :: a ++ sep ++ y) = true := by
      intro hp
      rcases a with _ | ⟨a1, _ | ⟨a2, _ | ⟨a3, _ | ⟨a4, a⟩⟩⟩⟩
      · rw [sep_eq] at hp; simp [List.isPrefixOf] at hp
      · rw [sep_eq] at hp; simp [List.isPrefixOf] at hp
      · rw [sep_eq] at hp; simp [List.isPrefixOf] at hp
      · rw [sep_eq] at hp; simp [List.isPrefixOf] at hp
      · rw [List.isPrefixOf_iff_prefix] at hp
        apply ha
        apply List.IsPrefix.isInfix
        rw [List.append_assoc] at hp
        exact List.prefix_of_prefix_length_le hp (List.prefix_append _ _) (by
          rw [sep_eq]; simp)
    unfold bytesIndex
    rw [if_neg hnp]
    simp only [List.cons_append]
    rw [ih ha2]
    rfl

theorem not_infix_concat_newline (l : Bytes) (h : ¬ sep <:+: l) : ¬ sep <:+: l ++ [10] := by
  intro hi
  rw [List.infix_concat_iff] at hi
  rcases hi with hi | hi
  · have := List.IsSuffix.getLast hi (by rw [sep_eq]; simp)
    rw [List.getLast_append_singleton] at this
    revert this
    decide
  · exact h hi

theorem settingsLoop_skip (menu : modeMenu) :
    ∀ (ls : List Bytes) (n : Nat) (y : Bytes), (∀ l ∈ ls, 10 ∉ l ∧ ¬ sep <:+: l) →
      settingsLoop (n + ls.length) (unlines ls ++ y) menu = settingsLoop n y menu := by
  intro ls
  induction ls with
  | nil => intro n y _; rfl
  | cons l ls ih =>
    intro n y h
    obtain ⟨hnl, hns⟩ := h l (List.mem_cons_self _ _)
    have hrest := ih n y (fun l' hl' => h l' (List.mem_cons_of_mem _ hl'))
    have hfuel : n + (l :: ls).length = (n + ls.length) + 1 := by simp; omega
    have hbuf : unlines (l :: ls) ++ y = l ++ 10 :: (unlines ls ++ y) := by
      simp [unlines]
    rw [hfuel, hbuf]
    simp only [settingsLoop, readBytes_line l _ hnl, Bool.false_eq_true, if_false,
      bytesIndex_none _ _ (not_infix_concat_newline l hns)]
    exact hrest

theorem length_le_unlines (ls : List Bytes) : ls.length ≤ (unlines ls).length := by
  induction ls with
  | nil => simp [unlines]
  | cons l ls ih =>
    simp only [unlines, List.length_cons, List.length_append]
    omega

/-- The settings whose first line with the marker is `a ++ "Mode:" ++ x`: the
checked mode is the one named by the first field of `x`. -/
theorem settings_first_mode_line (ls : List Bytes) (a x rest : Bytes) (menu : modeMenu)
    (hls : ∀ l ∈ ls, 10 ∉ l ∧ ¬ sep <:+: l) (ha : ¬ sep <:+: a) (hnl : 10 ∉ a ++ x) :
    updateModeFromSettings ⟨unlines ls ++ (a ++ sep ++ x) ++ 10 :: rest, false⟩ menu
      = onlyChecked (firstField x) := by
  have hline : 10 ∉ a ++ sep ++ x := by
    intro h
    rw [List.append_assoc, List.mem_append, List.mem_append] at h
    rcases h with h | h | h
    · exact hnl (List.mem_append_left _ h)
    · revert h; decide
    · exact hnl (List.mem_append_right _ h)
  have hlen := length_le_unlines ls
  simp only [updateModeFromSettings, Bool.false_eq_true, if_false]
  have hfuel : (unlines ls ++ (a ++ sep ++ x) ++ 10 :: rest).length + 1
      = ((unlines ls ++ (a ++ sep ++ x) ++ 10 :: rest).length - ls.length + 1) + ls.length := by
    simp only [List.length_append]
    omega
  have hidx : bytesIndex (a ++ sep ++ x ++ [10]) sep = some a.length := by
    rw [List.append_assoc (a ++ sep)]
    exact bytesIndex_sep a (x ++ [10]) ha
  rw [hfuel, List.append_assoc (unlines ls), settingsLoop_skip menu ls _ _ hls]
  simp only [settingsLoop, readBytes_line _ _ hline, Bool.false_eq_true, if_false, hidx]
  rw [check_eq_onlyChecked, modeToken_eq]
  have hdrop : (a ++ sep ++ x ++ [10]).drop (a.length + sep.length) = x ++ [10] := by
    rw [List.append_assoc (a ++ sep), ← List.length_append]
    exact List.drop_left _ _
  rw [hdrop, cutAtSpace_trimSpace, firstField_newline]

theorem settingsLoop_no_marker (menu : modeMenu) :
    ∀ (n : Nat) (buf : Bytes), ¬ sep <:+: buf → settingsLoop n buf menu = menu := by
  intro n
  induction n with
  | zero => intro buf _; rfl
  | succ n ih =>
    intro buf h
    unfold settingsLoop
    simp only
    split_ifs with he
    · rfl
    · have happ := readBytes_append 10 buf
      have h1 : ¬ sep <:+: (readBytes 10 buf).1 := by
        intro hi
        apply h
        rw [← happ]
        exact List.IsInfix.trans hi (List.prefix_append _ _).isInfix
      have h2 : ¬ sep <:+: (readBytes 10 buf).2.1 := by
        intro hi
        apply h
        rw [← happ]
        exact List.IsInfix.trans hi (List.suffix_append _ _).isInfix
      rw [bytesIndex_none _ _ h1]
      exact ih _ h2

/-! ## The fuel of the loops is never used up -/

theorem settingsLoop_enough (menu : modeMenu) :
    ∀ (n m : Nat) (buf : Bytes), buf.length < n → buf.length < m →
      settingsLoop n buf menu = settingsLoop m buf menu := by
  intro n
  induction n with
  | zero => intro m buf hn _; omega
  | succ n ih =>
    intro m buf hn hm
    rcases m with _ | m
    · omega
    · simp only [settingsLoop]
      split_ifs with he
      · rfl
      · have hlt := readBytes_rest_lt 10 buf (by simpa using he)
        cases bytesIndex (readBytes 10 buf).1 sep with
        | none => exact ih m _ (by omega) (by omega)
        | some i => rfl

theorem scanStart_enough (p : Bytes) (lim : Int) :
    ∀ (n m : Nat) (s : Int), s - lim < n → s - lim < m →
      scanStart p lim n s = scanStart p lim m s := by
  intro n
  induction n with
  | zero =>
    intro m s hn _
    rcases m with _ | m
    · rfl
    · have : ¬ s ≥ lim := by omega
      simp only [scanStart, this, if_false]
  | succ n ih =>
    intro m s hn hm
    rcases m with _ | m
    · have : ¬ s ≥ lim := by omega
      simp only [scanStart, this, if_false]
    · simp only [scanStart]
      split_ifs
      · rfl
      · exact ih m (s - 1) (by omega) (by omega)
      · rfl

theorem settings_line_token (a x rest : Bytes) (ha : ¬ sep <:+: a) (hnl : 10 ∉ a ++ x) :
    readBytes 10 ((a ++ sep ++ x) ++ 10 :: rest) = (a ++ sep ++ x ++ [10], rest, false)
    ∧ bytesIndex (a ++ sep ++ x ++ [10]) sep = some a.length
    ∧ modeToken (a ++ sep ++ x ++ [10]) a.length = firstField x := by
  have hline : 10 ∉ a ++ sep ++ x := by
    intro h
    rw [List.append_assoc, List.mem_append, List.mem_append] at h
    rcases h with h | h | h
    · exact hnl (List.mem_append_left _ h)
    · revert h; decide
    · exact hnl (List.mem_append_right _ h)
  refine ⟨readBytes_line _ _ hline, ?_, ?_⟩
  · rw [List.append_assoc (a ++ sep)]
    exact bytesIndex_sep a (x ++ [10]) ha
  · have hdrop : (a ++ sep ++ x ++ [10]).drop (a.length + sep.length) = x ++ [10] := by
      rw [List.append_assoc (a ++ sep), ← List.length_append]
      exact List.drop_left _ _
    rw [modeToken_eq, hdrop, cutAtSpace_trimSpace, firstField_newline]

theorem split_newline (t : Bytes) : ∃ t1 rest, t ++ [10] = t1 ++ 10 :: rest ∧ 10 ∉ t1 := by
  induction t with
  | nil => exact ⟨[], [], rfl, by simp⟩
  | cons c t ih =>
    by_cases hc : c = 10
    · subst hc
      exact ⟨[], t ++ [10], by simp, by simp⟩
    · obtain ⟨t1, rest, he, hn⟩ := ih
      refine ⟨c :: t1, rest, by simp [he], ?_⟩
      intro h
      rcases List.mem_cons.mp h with h | h
      · exact hc h.symm
      · exact hn h

theorem sevenModes_facts (M : mode) (h : M ∈ sevenModes) :
    (M.headD 0x20 < 0x80 ∧ unicodeIsSpace (M.headD 0x20) = false) ∧ M ≠ [] ∧ 10 ∉ M
    ∧ cutAtSpace M = M := by
  simp only [sevenModes, List.mem_cons, List.mem_singleton, List.mem_nil_iff, or_false] at h
  rcases h with h | h | h | h | h | h | h <;> subst h <;> decide

theorem firstField_mode (M : mode) (h : M ∈ sevenModes) (t : Bytes) :
    firstField (0x20 :: M ++ 0x20 :: t) = M := by
  obtain ⟨⟨h1, h2⟩, hne, _, hcut⟩ := sevenModes_facts M h
  have hns : NoSpaceHead (M ++ 0x20 :: t) := by
    intro c l he
    rcases M with _ | ⟨m, M⟩
    · exact absurd rfl hne
    · simp only [List.cons_append, List.cons.injEq] at he
      obtain ⟨rfl, _⟩ := he
      exact ⟨h1, h2⟩
  unfold firstField
  rw [List.cons_append, trimLeft_space_cons 0x20 _ (by decide) (by decide),
    trimLeft_noSpaceHead _ hns, cutAtSpace_append M _ (spaceHead_ascii 0x20 t (by decide)), hcut]

theorem settings_mode_line (M : mode) (h : M ∈ sevenModes) (t : Bytes) :
    ∃ t1 rest, ascii "Mode: " ++ M ++ ascii " " ++ t ++ ascii "\n"
        = ([] ++ sep ++ (0x20 :: M ++ 0x20 :: t1)) ++ 10 :: rest
      ∧ 10 ∉ [] ++ (0x20 :: M ++ 0x20 :: t1) := by
  obtain ⟨t1, rest, he, hn⟩ := split_newline t
  refine ⟨t1, rest, ?_, ?_⟩
  · have e1 : ascii "Mode: " = sep ++ [0x20] := by decide
    have e2 : ascii " " = [0x20] := by decide
    have e3 : ascii "\n" = [10] := by decide
    rw [e1, e2, e3]
    simp only [List.append_assoc, List.nil_append, List.cons_append, List.singleton_append]
    rw [he]
  · obtain ⟨_, _, hM, _⟩ := sevenModes_facts M h
    simp only [List.nil_append, List.mem_cons, List.mem_append, not_or]
    exact ⟨⟨by decide, hM⟩, by decide, hn⟩

/-- C2, for lines that end with a newline: when the output consists of lines
`ls` without the marker "Mode:", then a line `a ++ "Mode:" ++ x` (the marker not
in `a`), a newline, and any `rest`, `updateModeFromSettings` reads the marker
in that line, takes the text `x` after it, trims leading white space, cuts at
the first white space, and leaves checked exactly the mode named by that token
(none when it names no mode), whatever the menu was before and whatever `rest`
is. -/
theorem updateModeFromSettings_first_mode_line (ls : List Bytes) (a x rest : Bytes)
    (menu : modeMenu) (hls : ∀ l ∈ ls, 10 ∉ l ∧ ¬ sep <:+: l) (ha : ¬ sep <:+: a)
    (hnl : 10 ∉ a ++ x) :
    updateModeFromSettings ⟨unlines ls ++ (a ++ sep ++ x) ++ 10 :: rest, false⟩ menu
      = onlyChecked (firstField x)
    ∧ modeToken (a ++ sep ++ x ++ [10]) a.length = firstField x
    ∧ (firstField x ∈ sevenModes →
        (updateModeFromSettings ⟨unlines ls ++ (a ++ sep ++ x) ++ 10 :: rest, false⟩
          menu).checked = firstField x
        ∧ (updateModeFromSettings ⟨unlines ls ++ (a ++ sep ++ x) ++ 10 :: rest, false⟩
          menu).count = 1)
    ∧ (firstField x ∉ sevenModes →
        (updateModeFromSettings ⟨unlines ls ++ (a ++ sep ++ x) ++ 10 :: rest, false⟩
          menu).count = 0) := by
  rw [settings_first_mode_line ls a x rest menu hls ha hnl]
  refine ⟨rfl, (settings_line_token a x rest ha hnl).2.2, ?_, ?_⟩
  · intro h
    exact ⟨(onlyChecked_seven _ h).2, (onlyChecked_seven _ h).1⟩
  · intro h
    rw [onlyChecked_not_seven _ h]
    rfl

theorem updateModeFromSettings_first_mode_line_witness :
    (∀ l ∈ [ascii "Always On: true", ascii "Switch Locked: false"], 10 ∉ l ∧ ¬ sep <:+: l)
    ∧ ¬ sep <:+: ascii "(user set)\t"
    ∧ 10 ∉ ascii "(user set)\t" ++ ascii " WarpWithDnsOverHttps"
    ∧ unlines [ascii "Always On: true", ascii "Switch Locked: false"]
        ++ (ascii "(user set)\t" ++ sep ++ ascii " WarpWithDnsOverHttps") ++ 10
          :: ascii "Mode: Warp\n"
        = ascii ("Always On: true\nSwitch Locked: false\n"
            ++ "(user set)\tMode: WarpWithDnsOverHttps\nMode: Warp\n")
    ∧ updateModeFromSettings
        ⟨unlines [ascii "Always On: true", ascii "Switch Locked: false"]
          ++ (ascii "(user set)\t" ++ sep ++ ascii " WarpWithDnsOverHttps") ++ 10
            :: ascii "Mode: Warp\n", false⟩ (onlyChecked modeTunnelOnly)
        = onlyChecked modeWarpWithDnsOverHttps :=
  ⟨by decide, by decide, by decide, by decide,
    (updateModeFromSettings_first_mode_line
      [ascii "Always On: true", ascii "Switch Locked: false"] (ascii "(user set)\t")
      (ascii " WarpWithDnsOverHttps") (ascii "Mode: Warp\n") (onlyChecked modeTunnelOnly)
      (by decide) (by decide) (by decide)).1.trans (by decide)⟩

/-- C2 as stated fails: in the output "Mode: Warp" the final line is not
terminated by a newline; it contains the marker and its token names Warp, yet
`updateModeFromSettings` leaves the menu as it was, with no checkbox checked. -/
theorem updateModeFromSettings_unterminated_counterexample :
    sep <:+: ascii "Mode: Warp"
    ∧ firstField (ascii " Warp") = modeWarp
    ∧ updateModeFromSettings ⟨ascii "Mode: Warp", false⟩ menuInit = menuInit
    ∧ (updateModeFromSettings ⟨ascii "Mode: Warp", false⟩ menuInit).checked ≠ modeWarp := by
  decide

/-- C3: for each of the seven mode names `M`, every trailing text `t` and every
menu before the call, on the output "Mode: " ++ M ++ " " ++ t ++ "\n"
`updateModeFromSettings` reads a first line with the marker at index 0, extracts
the token `M` from it, and leaves exactly the checkbox of `M` checked, so that
`checked()` returns `M`. -/
theorem updateModeFromSettings_mode_line (M : mode) (t : Bytes) (menu : modeMenu)
    (hM : M ∈ sevenModes) :
    (readBytes 10 (ascii "Mode: " ++ M ++ ascii " " ++ t ++ ascii "\n")).2.2 = false
    ∧ bytesIndex (readBytes 10 (ascii "Mode: " ++ M ++ ascii " " ++ t ++ ascii "\n")).1 sep
        = some 0
    ∧ modeToken (readBytes 10 (ascii "Mode: " ++ M ++ ascii " " ++ t ++ ascii "\n")).1 0 = M
    ∧ updateModeFromSettings ⟨ascii "Mode: " ++ M ++ ascii " " ++ t ++ ascii "\n", false⟩ menu
        = onlyChecked M
    ∧ (updateModeFromSettings ⟨ascii "Mode: " ++ M ++ ascii " " ++ t ++ ascii "\n", false⟩
        menu).checked = M
    ∧ (updateModeFromSettings ⟨ascii "Mode: " ++ M ++ ascii " " ++ t ++ ascii "\n", false⟩
        menu).count = 1 := by
  obtain ⟨t1, rest, he, hn⟩ := settings_mode_line M hM t
  have hsep : ¬ sep <:+: ([] : Bytes) := by decide
  obtain ⟨hread, hidx, htok⟩ := settings_line_token [] (0x20 :: M ++ 0x20 :: t1) rest hsep hn
  have hres := settings_first_mode_line [] [] (0x20 :: M ++ 0x20 :: t1) rest menu
    (by simp) hsep hn
  simp only [unlines, List.nil_append] at hres
  rw [firstField_mode M hM t1] at htok hres
  rw [he]
  simp only [List.nil_append] at hread hidx htok ⊢
  rw [hread, hres]
  exact ⟨rfl, hidx, htok, rfl, (onlyChecked_seven M hM).2, (onlyChecked_seven M hM).1⟩

theorem updateModeFromSettings_mode_line_witness :
    modeWarpProxy ∈ sevenModes
    ∧ ascii "Mode: " ++ modeWarpProxy ++ ascii " " ++ ascii "on port 40000" ++ ascii "\n"
        = ascii "Mode: WarpProxy on port 40000\n"
    ∧ modeToken (readBytes 10 (ascii "Mode: " ++ modeWarpProxy ++ ascii " "
        ++ ascii "on port 40000" ++ ascii "\n")).1 0 = modeWarpProxy
    ∧ (updateModeFromSettings ⟨ascii "Mode: " ++ modeWarpProxy ++ ascii " "
        ++ ascii "on port 40000" ++ ascii "\n", false⟩ (onlyChecked modeWarp)).checked
        = modeWarpProxy :=
  ⟨by decide, by decide,
    (updateModeFromSettings_mode_line modeWarpProxy (ascii "on port 40000")
      (onlyChecked modeWarp) (by decide)).2.2.1,
    (updateModeFromSettings_mode_line modeWarpProxy (ascii "on port 40000")
      (onlyChecked modeWarp) (by decide)).2.2.2.2.1⟩

/-- C4, as the code behaves: when the output of a successful `settings` command
does not contain "Mode:" (no line contains it), `updateModeFromSettings` leaves
every checkbox as it was before the call; so from the initial menu, with none
checked, `checked()` returns Unknown and none is checked afterwards, and an
earlier selection is kept. -/
theorem updateModeFromSettings_no_mode_line (output : Bytes) (menu : modeMenu)
    (h : ¬ sep <:+: output) :
    updateModeFromSettings ⟨output, false⟩ menu = menu
    ∧ (updateModeFromSettings ⟨output, false⟩ menuInit).checked = modeUnknown
    ∧ (updateModeFromSettings ⟨output, false⟩ menuInit).count = 0 := by
  have key : ∀ m : modeMenu, updateModeFromSettings ⟨output, false⟩ m = m := by
    intro m
    simp only [updateModeFromSettings, Bool.false_eq_true, if_false]
    exact settingsLoop_no_marker m _ output h
  rw [key menu, key menuInit]
  exact ⟨rfl, by decide, by decide⟩

theorem updateModeFromSettings_no_mode_line_witness :
    ¬ sep <:+: ascii "Always On: false\nSwitch Locked: false\n"
    ∧ updateModeFromSettings ⟨ascii "Always On: false\nSwitch Locked: false\n", false⟩
        (onlyChecked modeDnsOverTls) = onlyChecked modeDnsOverTls :=
  ⟨by decide,
    (updateModeFromSettings_no_mode_line (ascii "Always On: false\nSwitch Locked: false\n")
      (onlyChecked modeDnsOverTls) (by decide)).1⟩

/-- C4 as stated fails: with Warp checked before the call and an output without
"Mode:", Warp is still checked afterwards and `checked()` returns Warp, not
Unknown. -/
theorem updateModeFromSettings_retains_counterexample :
    ¬ sep <:+: ascii "Always On: false\n"
    ∧ (onlyChecked modeWarp).atMostOne
    ∧ (updateModeFromSettings ⟨ascii "Always On: false\n", false⟩ (onlyChecked modeWarp)).checked
        = modeWarp
    ∧ (updateModeFromSettings ⟨ascii "Always On: false\n", false⟩ (onlyChecked modeWarp)).checked
        ≠ modeUnknown
    ∧ (updateModeFromSettings ⟨ascii "Always On: false\n", false⟩ (onlyChecked modeWarp)).count
        = 1 := by
  decide

end WarpApplet
